import Mathlib

/-!
Verification of the GenEx Object/Layer entity model and event routing
(`src/object.cpp`, `src/object.hpp`, `src/util.hpp`, `src/main.cpp`).

The C++ code is shallowly embedded:
* `Obj` models `GenEx::Object`: spatial state over `ℚ` (the C++ `double`s),
  a dead flag, and the handler table.  Handler invocations are observed
  through ghost trace fields (`destroyCalls`, `updateArgs`, `keydownCalls`,
  `renderCalls`); the boolean results of the `update`/`keydown` handler
  slots are modelled by the fields `updateResult`/`keydownResult`
  (the default handlers in `src/events.hpp` all return `true`).
* `std::string` is modelled as `List Char`; `std::unordered_map` as an
  insertion-ordered association list (iteration order of the C++ map is
  unspecified; the association list fixes one order).
* Shared ownership (`std::shared_ptr`) is modelled by a heap: a `World`
  maps addresses to `Obj` cells, and a `Layer`'s `objects` map sends
  instance ids to heap addresses.  `World.counter` models the process-wide
  `Object::_num_instances` counter, `World.nextAddr` the allocator.
-/

namespace GenEx

/-- Vector<3, double> from src/math/vector.hpp, with the doubles modelled
as rationals.  Only componentwise addition and scalar multiplication are
needed by the embedded code. -/
structure Vec3 where
  x : ℚ
  y : ℚ
  z : ℚ
deriving DecidableEq, Repr

/-- Componentwise vector addition (Vector::operator+=). -/
def Vec3.add (a b : Vec3) : Vec3 := ⟨a.x + b.x, a.y + b.y, a.z + b.z⟩

/-- Scalar multiplication (Vector::operator*). -/
def Vec3.smul (a : Vec3) (s : ℚ) : Vec3 := ⟨a.x * s, a.y * s, a.z * s⟩

/-- The zero vector {0, 0, 0}. -/
def Vec3.zero : Vec3 := ⟨0, 0, 0⟩

/-- The slots of the EventHandlers table that the embedded dispatch code
reads; each slot is abstracted by the boolean its handler returns
(default handlers return true). -/
structure Handlers where
  updateResult : Bool
  keydownResult : Bool
deriving DecidableEq, Repr

/-- GenerateEventHandlerStruct(): the default table, every handler
returning true. -/
def defaultHandlers : Handlers := ⟨true, true⟩

/-- GenEx::Object.  The trace fields destroyCalls / updateArgs /
keydownCalls / renderCalls are ghost observations counting handler
invocations (updateArgs also records the elapsed argument each update
handler call received). -/
structure Obj where
  instanceId : Nat
  position : Vec3
  anchorPoint : Vec3
  offset : Vec3
  rotation : Vec3
  scale : Vec3
  moveVector : Vec3
  angleVector : Vec3
  dead : Bool
  updateResult : Bool
  keydownResult : Bool
  destroyCalls : Nat
  updateArgs : List ℚ
  keydownCalls : Nat
  renderCalls : Nat
deriving DecidableEq, Repr

/-- Object::Object(EventHandlers): zero spatial state except
anchor_point = {0.5, 0.5, 0.5}; assigns instance_id = _num_instances++.
Returns the new object and the bumped counter. -/
def mkObj (h : Handlers) (counter : Nat) : Obj × Nat :=
  (⟨counter, Vec3.zero, ⟨1/2, 1/2, 1/2⟩, Vec3.zero, Vec3.zero, Vec3.zero,
    Vec3.zero, Vec3.zero, false, h.updateResult, h.keydownResult, 0, [], 0, 0⟩,
   counter + 1)

/-- Object::Object(const Object &): delegates to Object(other.event_handlers)
(assigning a fresh instance id) and copies the spatial state and handler
table; the dead flag and the ghost traces start fresh. -/
def copyObj (other : Obj) (counter : Nat) : Obj × Nat :=
  ({ other with
      instanceId := counter
      dead := false
      destroyCalls := 0
      updateArgs := []
      keydownCalls := 0
      renderCalls := 0 },
   counter + 1)

/-- Object::destroy(): if not dead, set the flag and invoke the destroy
handler (observed by bumping destroyCalls); otherwise do nothing. -/
def Obj.destroy (o : Obj) : Obj :=
  if o.dead then o
  else { o with dead := true, destroyCalls := o.destroyCalls + 1 }

/-- Object::is_dead(). -/
def Obj.isDead (o : Obj) : Bool := o.dead

/-- Object::get_id(). -/
def Obj.getId (o : Obj) : Nat := o.instanceId

/-- Calling destroy() k times in a row. -/
def destroyN : Nat → Obj → Obj
  | 0, o => o
  | n + 1, o => destroyN n o.destroy

/-- Object::update(elapsed): position += move_vector * (60.0 / elapsed);
rotation += angle_vector * (60.0 / elapsed); then return
event_handlers.update(this, elapsed), observed by appending elapsed to the
updateArgs trace. -/
def Obj.update (o : Obj) (elapsed : ℚ) : Obj × Bool :=
  let o := { o with
      position := o.position.add (o.moveVector.smul (60 / elapsed))
      rotation := o.rotation.add (o.angleVector.smul (60 / elapsed)) }
  ({ o with updateArgs := o.updateArgs ++ [elapsed] }, o.updateResult)

/-- Object::keydown(...): returns event_handlers.keydown(this, ...); the
key arguments do not influence the embedded state, so only the invocation
is recorded. -/
def Obj.keydown (o : Obj) : Obj × Bool :=
  ({ o with keydownCalls := o.keydownCalls + 1 }, o.keydownResult)

/-- Object::render(...): invokes event_handlers.render (void result). -/
def Obj.render (o : Obj) : Obj :=
  { o with renderCalls := o.renderCalls + 1 }

/-! ### Strings and the suffix-increment naming algorithm -/

/-- Test for an ASCII decimal digit (the \d character class). -/
def isDigitChar (c : Char) : Bool :=
  decide (48 ≤ c.toNat ∧ c.toNat ≤ 57)

/-- The digit character for a value below ten. -/
def digitChar (d : Nat) : Char := Char.ofNat (48 + d)

/-- Numeric value of a digit character. -/
def digitVal (c : Char) : Nat := c.toNat - 48

/-- std::stoi on a digit run (fold of decimal digits). -/
def strToNat (s : List Char) : Nat :=
  s.foldl (fun acc c => acc * 10 + digitVal c) 0

/-- Decimal digits of n, fuelled (n < fuel required for the full result);
mirrors std::to_string. -/
def natToStrAux : Nat → Nat → List Char
  | 0, _ => []
  | fuel + 1, n =>
    if n < 10 then [digitChar n]
    else natToStrAux fuel (n / 10) ++ [digitChar (n % 10)]

/-- std::to_string for naturals. -/
def natToStr (n : Nat) : List Char := natToStrAux (n + 1) n

/-- The match of std::regex_search(s, "(\d+)(?!.*\d)"): the last maximal
run of digits in s, if s contains any digit. -/
def lastDigitRun (s : List Char) : Option (List Char) :=
  let t := (s.reverse.dropWhile (fun c => !isDigitChar c)).takeWhile isDigitChar
  if t.isEmpty then none else some t.reverse

/-- Util::RegexReplace(s, "(\d+)(?!.*\d)", ""): s with its last maximal
digit run removed. -/
def removeLastDigitRun (s : List Char) : List Char :=
  let r := s.reverse
  ((r.dropWhile (fun c => !isDigitChar c)).dropWhile isDigitChar).reverse
    ++ (r.takeWhile (fun c => !isDigitChar c)).reverse

/-- One iteration of the collision loop body in Layer::add_object:
if no digit is found in the name append "0"; otherwise strip the last
digit run (the source stores this intermediate string and immediately
overwrites it) and replace the whole name with the incremented number. -/
def nextCandidate (name : List Char) : List Char :=
  match lastDigitRun name with
  | none => name ++ ['0']
  | some run =>
    let name_to_use := removeLastDigitRun name
    let name_to_use := natToStr (strToNat run + 1)
    name_to_use

/-- The while loop of Layer::add_object, fuelled: keep taking the next
candidate while the name is a key of id_map. -/
def resolveName : Nat → List (List Char) → List Char → List Char
  | 0, _, name_to_use => name_to_use
  | fuel + 1, keys, name_to_use =>
    if name_to_use ∈ keys then resolveName fuel keys (nextCandidate name_to_use)
    else name_to_use

/-- Iterating nextCandidate n times. -/
def candIter : Nat → List Char → List Char
  | 0, s => s
  | n + 1, s => candIter n (nextCandidate s)

/-! ### Association lists (std::unordered_map, insertion order fixed) -/

section AList

variable {α β : Type} [DecidableEq α] [DecidableEq β]

/-- Map lookup (find by key, first match). -/
def alistLookup : List (α × β) → α → Option β
  | [], _ => none
  | p :: rest, k => if p.1 = k then some p.2 else alistLookup rest k

/-- Whether the key is present (map.find(k) != map.end()). -/
def alistHasKey (m : List (α × β)) (k : α) : Bool := (alistLookup m k).isSome

/-- Overwrite the value at an existing key, leaving other entries alone. -/
def alistUpdate : List (α × β) → α → β → List (α × β)
  | [], _, _ => []
  | p :: rest, k, v =>
    if p.1 = k then (k, v) :: alistUpdate rest k v else p :: alistUpdate rest k v

/-- map[k] = v: overwrite if the key exists, otherwise append a new entry. -/
def alistInsert (m : List (α × β)) (k : α) (v : β) : List (α × β) :=
  if alistHasKey m k then alistUpdate m k v else m ++ [(k, v)]

/-- map.erase(k): drop the entries with the given key. -/
def alistErase : List (α × β) → α → List (α × β)
  | [], _ => []
  | p :: rest, k =>
    if p.1 = k then alistErase rest k else p :: alistErase rest k

/-- Util::FindByValue (vector version): the keys whose value equals v, in
iteration order. -/
def findByValue : List (α × β) → β → List α
  | [], _ => []
  | p :: rest, v =>
    if p.2 = v then p.1 :: findByValue rest v else findByValue rest v

/-- Util::FindByValue (nullptr version): whether some key maps to v. -/
def findByValueB : List (α × β) → β → Bool
  | [], _ => false
  | p :: rest, v => if p.2 = v then true else findByValueB rest v

/-- Number of entries whose value equals v. -/
def countValue : List (α × β) → β → Nat
  | [], _ => 0
  | p :: rest, v => (if p.2 = v then 1 else 0) + countValue rest v

end AList

/-! ### The heap of shared objects and the Layer class -/

/-- The process state outside any single Layer: the heap of shared Object
cells (address to cell), the allocator cursor, and the process-wide
instance counter Object::_num_instances. -/
structure World where
  heap : List (Nat × Obj)
  nextAddr : Nat
  counter : Nat
deriving DecidableEq, Repr

/-- Dereference a shared_ptr: read the heap cell at an address. -/
def World.get (w : World) (a : Nat) : Option Obj := alistLookup w.heap a

/-- Mutate the object behind a shared_ptr: overwrite the heap cell. -/
def World.set (w : World) (a : Nat) (o : Obj) : World :=
  { w with heap := alistUpdate w.heap a o }

/-- make_shared<Object>: allocate a fresh cell. -/
def World.alloc (w : World) (o : Obj) : World × Nat :=
  ({ w with heap := w.heap ++ [(w.nextAddr, o)], nextAddr := w.nextAddr + 1 },
   w.nextAddr)

/-- Fallback object used to totalise heap dereferences (a C++ dereference
of a live shared_ptr cannot miss; the claims only use states where every
held address is live). -/
def defaultObj : Obj := (mkObj defaultHandlers 0).1

/-- GenEx::Layer: its own Object part plus the two parallel child maps,
objects : instance id -> heap address (shared_ptr) and
id_map : name -> instance id. -/
structure Layer where
  own : Obj
  objects : List (Nat × Nat)
  id_map : List (List Char × Nat)
deriving DecidableEq, Repr

/-- Layer::Layer(): empty maps, fresh Object part (bumps the counter). -/
def mkLayer (w : World) : World × Layer :=
  let (own, counter) := mkObj defaultHandlers w.counter
  ({ w with counter := counter }, { own := own, objects := [], id_map := [] })

/-- Layer::num_objects(). -/
def Layer.num_objects (L : Layer) : Nat := L.objects.length

/-- Layer::add_object(objptr, name).  If the pointed-to object is already
a value of this layer's objects map, a copy with a fresh id is allocated
(make_shared<Object>(*objptr)); the name is resolved by the suffix
collision loop; then id_map[name_to_use] = object_to_add->get_id() and
objects[object_to_add->get_id()] = object_to_add.  Returns the new world,
the new layer and the name actually used. -/
def Layer.add_object (L : Layer) (w : World) (objptr : Nat) (name : List Char) :
    World × Layer × List Char :=
  let (w, object_to_add) :=
    if findByValueB L.objects objptr then
      let (o, counter) := copyObj ((w.get objptr).getD defaultObj) w.counter
      let w := { w with counter := counter }
      w.alloc o
    else (w, objptr)
  let name_to_use := resolveName (L.id_map.length + 2) (L.id_map.map Prod.fst) name
  let oid := ((w.get object_to_add).getD defaultObj).instanceId
  (w,
   { L with
      id_map := alistInsert L.id_map name_to_use oid
      objects := alistInsert L.objects oid object_to_add },
   name_to_use)

/-- Layer::get_object(num_id): the stored shared_ptr, or null. -/
def Layer.get_object (L : Layer) (num_id : Nat) : Option Nat :=
  alistLookup L.objects num_id

/-- Layer::get_object(str_id): resolve the name, then objects[id] (null
when the name is absent). -/
def Layer.get_object_name (L : Layer) (str_id : List Char) : Option Nat :=
  (alistLookup L.id_map str_id).bind (fun i => alistLookup L.objects i)

/-- Layer::remove_object(num_id): if present, erase from objects and erase
the first name FindByValue reports for that id (the source indexes vec[0];
under the layer invariant the vector is never empty, so the empty case
never runs). -/
def Layer.remove_object_id (L : Layer) (num_id : Nat) : Layer :=
  if alistHasKey L.objects num_id then
    let objects := alistErase L.objects num_id
    match findByValue L.id_map num_id with
    | [] => { L with objects := objects }
    | k :: _ => { L with objects := objects, id_map := alistErase L.id_map k }
  else L

/-- Layer::remove_object(str_id): erase the id the name maps to from
objects, and the name from id_map. -/
def Layer.remove_object_name (L : Layer) (str_id : List Char) : Layer :=
  match alistLookup L.id_map str_id with
  | some i =>
    { L with objects := alistErase L.objects i, id_map := alistErase L.id_map str_id }
  | none => L

/-- Layer::remove_object(objptr): find the first id holding this pointer,
erase it from objects, then erase the first name mapping to that id. -/
def Layer.remove_object_ptr (L : Layer) (objptr : Nat) : Layer :=
  match findByValue L.objects objptr with
  | [] => L
  | i :: _ =>
    let objects := alistErase L.objects i
    match findByValue L.id_map i with
    | [] => { L with objects := objects }
    | k :: _ => { L with objects := objects, id_map := alistErase L.id_map k }

/-- Layer::destroy(): on the first call run Object::destroy and clear both
maps; afterwards a no-op. -/
def Layer.destroy (L : Layer) : Layer :=
  if L.own.isDead then L
  else { own := L.own.destroy, objects := [], id_map := [] }

/-- Layer::clone(): make a new Layer() and re-add every child under the
first name FindByValue reports for its id.  The shared_ptr itself is
copied (std::shared_ptr<Object> sp(iter->second)), so the child cells are
shared with the source layer, not duplicated. -/
def Layer.clone (L : Layer) (w : World) : World × Layer :=
  let (w, new_layer) := mkLayer w
  L.objects.foldl
    (fun (acc : World × Layer) pr =>
      let (w, nl) := acc
      let vec := findByValue L.id_map (((w.get pr.2).getD defaultObj).instanceId)
      let (w, nl, _) := nl.add_object w pr.2 (vec.headD [])
      (w, nl))
    (w, new_layer)

/-! ### Layer dispatch fan-out -/

/-- The loop of Layer::update: a dead child is removed via
remove_object(iter.second); otherwise the child is updated and a false
result returns immediately; after the loop, Object::update on the layer
itself. -/
def layerUpdateGo (elapsed : ℚ) : List (Nat × Nat) → World → Layer → World × Layer × Bool
  | [], w, L =>
    let (own, r) := L.own.update elapsed
    (w, { L with own := own }, r)
  | pr :: rest, w, L =>
    let child := (w.get pr.2).getD defaultObj
    if child.isDead then
      layerUpdateGo elapsed rest w (L.remove_object_ptr pr.2)
    else
      let (child, r) := child.update elapsed
      let w := w.set pr.2 child
      if r then layerUpdateGo elapsed rest w L else (w, L, false)

/-- Layer::update(elapsed). -/
def Layer.update (L : Layer) (w : World) (elapsed : ℚ) : World × Layer × Bool :=
  layerUpdateGo elapsed L.objects w L

/-- The loop of Layer::keydown: no dead-child handling; the first child
returning false short-circuits; after the loop, Object::keydown on the
layer itself. -/
def layerKeydownGo : List (Nat × Nat) → World → Layer → World × Layer × Bool
  | [], w, L =>
    let (own, r) := L.own.keydown
    (w, { L with own := own }, r)
  | pr :: rest, w, L =>
    let child := (w.get pr.2).getD defaultObj
    let (child, r) := child.keydown
    let w := w.set pr.2 child
    if r then layerKeydownGo rest w L else (w, L, false)

/-- Layer::keydown(...). -/
def Layer.keydown (L : Layer) (w : World) : World × Layer × Bool :=
  layerKeydownGo L.objects w L

/-- The loop of Layer::render: the source tests `!iter.second->is_dead()`
and REMOVES the child in that branch, so live children are removed and
dead children are forwarded the render call. -/
def layerRenderGo : List (Nat × Nat) → World → Layer → World × Layer
  | [], w, L => (w, L)
  | pr :: rest, w, L =>
    let child := (w.get pr.2).getD defaultObj
    if !child.isDead then
      layerRenderGo rest w (L.remove_object_ptr pr.2)
    else
      layerRenderGo rest (w.set pr.2 child.render) L

/-- Layer::render(...): Object::render runs first, then the child loop. -/
def Layer.render (L : Layer) (w : World) : World × Layer :=
  layerRenderGo L.objects w { L with own := L.own.render }

/-! ### Operation sequences on a Layer (for the map invariant) -/

/-- One public mutation of a Layer's child maps. -/
inductive LayerOp where
  | add (objptr : Nat) (name : List Char)
  | removeId (num_id : Nat)
  | removeName (str_id : List Char)
  | removePtr (objptr : Nat)
deriving DecidableEq, Repr

/-- Apply one operation. -/
def applyOp (w : World) (L : Layer) : LayerOp → World × Layer
  | .add p n => let (w, L, _) := L.add_object w p n; (w, L)
  | .removeId i => (w, L.remove_object_id i)
  | .removeName s => (w, L.remove_object_name s)
  | .removePtr p => (w, L.remove_object_ptr p)

/-- Apply a sequence of operations. -/
def applyOps (w : World) (L : Layer) : List LayerOp → World × Layer
  | [] => (w, L)
  | op :: rest =>
    let (w, L) := applyOp w L op
    applyOps w L rest

/-- Well-formedness of an operation sequence: every added pointer is a
live heap address at the moment of the call (a C++ shared_ptr argument
always points at a live object). -/
def opsWF (w : World) (L : Layer) : List LayerOp → Bool
  | [] => true
  | op :: rest =>
    (match op with
     | .add p _ => alistHasKey w.heap p
     | _ => true) &&
    opsWF (applyOp w L op).1 (applyOp w L op).2 rest

/-! ### Main-loop event routing (src/main.cpp) -/

/-- The SDL event kinds distinguished by the routing test in main(). -/
inductive EvType where
  | quit
  | windowevent
  | mousebuttondown
  | mousebuttonup
  | mousemotion
  | mousewheel
  | keydown
  | other
deriving DecidableEq, Repr

/-- A buffered SDL event: its discriminant and the window id its payload
carries (evt.window.windowID / evt.button.windowID / evt.motion.windowID /
evt.wheel.windowID; meaningless for kinds without one). -/
structure SDLEvent where
  type : EvType
  windowID : Nat
deriving DecidableEq, Repr

/-- The delivery test in main(): the disjunction deciding whether a
buffered event is appended to the window's event buffer.  The last
disjunct is `evt.type != SDL_WINDOWEVENT` exactly as in the source. -/
def deliverToWindow (win_id : Nat) (evt : SDLEvent) : Bool :=
  (evt.type == .windowevent && win_id == evt.windowID) ||
  (evt.type == .mousebuttondown && win_id == evt.windowID) ||
  (evt.type == .mousebuttonup && win_id == evt.windowID) ||
  (evt.type == .mousemotion && win_id == evt.windowID) ||
  (evt.type == .mousewheel && win_id == evt.windowID) ||
  (evt.type != .windowevent)

/-- The per-window inner loop of main(): walk the polled events; a quit
event sets the quit flag and breaks; otherwise an event passing the
delivery test is appended to the window's buffer.  Returns the final
buffer and the quit flag. -/
def routeEvents (win_id : Nat) : List SDLEvent → List SDLEvent → List SDLEvent × Bool
  | buffer, [] => (buffer, false)
  | buffer, evt :: rest =>
    if evt.type == .quit then (buffer, true)
    else if deliverToWindow win_id evt then routeEvents win_id (buffer ++ [evt]) rest
    else routeEvents win_id buffer rest

/-! ### Object construction sequences (instance id assignment) -/

/-- One Object construction: fresh from a handler table, or a copy/clone
of an existing object (Object::clone() calls the copy constructor). -/
inductive CtorOp where
  | fresh (h : Handlers)
  | copyOf (o : Obj)
deriving DecidableEq, Repr

/-- Run one construction against the process-wide counter. -/
def runCtor (counter : Nat) : CtorOp → Obj × Nat
  | .fresh h => mkObj h counter
  | .copyOf o => copyObj o counter

/-- Run a sequence of constructions, collecting the objects in order. -/
def runCtors : List CtorOp → Nat → List Obj × Nat
  | [], counter => ([], counter)
  | op :: rest, counter =>
    let (o, counter) := runCtor counter op
    let (os, counter) := runCtors rest counter
    (o :: os, counter)

/-! ## Concrete scenarios used by the evaluation theorems -/

/-- A heap holding three default-constructed objects with ids 0, 1, 2. -/
def threeObjWorld : World :=
  ⟨[(0, (mkObj defaultHandlers 0).1), (1, (mkObj defaultHandlers 1).1),
    (2, (mkObj defaultHandlers 2).1)], 3, 3⟩

/-- An empty layer whose own Object part has id 3. -/
def emptyLayer3 : Layer := ⟨(mkObj defaultHandlers 3).1, [], []⟩

/-- add_object(x, "foo") on the empty layer. -/
def addFoo1 : World × Layer × List Char :=
  emptyLayer3.add_object threeObjWorld 0 "foo".data

/-- then add_object(y, "foo"). -/
def addFoo2 : World × Layer × List Char :=
  addFoo1.2.1.add_object addFoo1.1 1 "foo".data

/-- then add_object(z, "foo0"). -/
def addFoo3 : World × Layer × List Char :=
  addFoo2.2.1.add_object addFoo2.1 2 "foo0".data

/-- An alive child object with id 5. -/
def aliveChild : Obj := (mkObj defaultHandlers 5).1

/-- A dead child object with id 7. -/
def deadChild : Obj := { (mkObj defaultHandlers 7).1 with dead := true }

/-- Heap holding the alive child at address 0 and the dead child at
address 1. -/
def reapWorld : World := ⟨[(0, aliveChild), (1, deadChild)], 2, 9⟩

/-- A layer containing the alive child (name "alive") and the dead child
(name "dead"). -/
def reapLayer : Layer :=
  ⟨(mkObj defaultHandlers 8).1, [(5, 0), (7, 1)],
   [("alive".data, 5), ("dead".data, 7)]⟩

/-- The source object for the clone scenario: id 3, default state. -/
def cloneSrcObj : Obj := (mkObj defaultHandlers 3).1

/-- Heap holding the clone scenario's single child at address 0. -/
def cloneWorld : World := ⟨[(0, cloneSrcObj)], 1, 4⟩

/-- A layer owning that child under the name "a". -/
def cloneSrcLayer : Layer :=
  ⟨(mkObj defaultHandlers 4).1, [(3, 0)], [("a".data, 3)]⟩

/-- The result of cloneSrcLayer.clone(). -/
def cloneResult : World × Layer := cloneSrcLayer.clone cloneWorld

/-- The world after writing position {1,0,0} through the clone's child
handle (the address the clone's objects map stores for id 3). -/
def cloneMutatedWorld : World :=
  cloneResult.1.set ((alistLookup cloneResult.2.objects 3).getD 99)
    { cloneSrcObj with position := ⟨1, 0, 0⟩ }

/-! ## Observers and invariants -/

/-- The keydown handler result of the child a map entry points at. -/
def kdResultOf (w : World) (pr : Nat × Nat) : Bool :=
  ((w.get pr.2).getD defaultObj).keydownResult

/-- The keydown invocation count of the child a map entry points at. -/
def kdCallsOf (w : World) (pr : Nat × Nat) : Nat :=
  ((w.get pr.2).getD defaultObj).keydownCalls

/-- The update handler result of the child a map entry points at. -/
def updResultOf (w : World) (pr : Nat × Nat) : Bool :=
  ((w.get pr.2).getD defaultObj).updateResult

/-- The update handler argument trace of the child a map entry points at. -/
def updArgsOf (w : World) (pr : Nat × Nat) : List ℚ :=
  ((w.get pr.2).getD defaultObj).updateArgs

/-- The dead flag of the child a map entry points at. -/
def deadOf (w : World) (pr : Nat × Nat) : Bool :=
  ((w.get pr.2).getD defaultObj).dead

/-- Well-formedness of the process state: heap addresses are distinct and
below the allocator cursor; the objects on the heap carry pairwise
distinct instance ids, all below the process-wide counter. -/
structure WorldInv (w : World) : Prop where
  addrNodup : (w.heap.map Prod.fst).Nodup
  addrLt : ∀ p ∈ w.heap, p.1 < w.nextAddr
  idNodup : (w.heap.map (fun p => p.2.instanceId)).Nodup
  idLt : ∀ p ∈ w.heap, p.2.instanceId < w.counter

/-- The Layer map invariant, tied to the heap: distinct names, distinct
ids, every name resolves to a present id, every present id carries
exactly one name, and every objects entry points at a live heap cell
whose instance id is the entry's key. -/
structure LayerInv (w : World) (L : Layer) : Prop where
  namesNodup : (L.id_map.map Prod.fst).Nodup
  idsNodup : (L.objects.map Prod.fst).Nodup
  sound : ∀ p ∈ L.id_map, alistHasKey L.objects p.2 = true
  unique : ∀ q ∈ L.objects, countValue L.id_map q.1 = 1
  coupling : ∀ q ∈ L.objects, ∃ o, alistLookup w.heap q.2 = some o ∧ o.instanceId = q.1

/-! ## Theorems -/

/-- C1: the claim states the collision loop keeps the characters before
the trailing digit run, so that after add_object(x,"foo"),
add_object(y,"foo") a further add_object(z,"foo0") returns "foo1".  The
code disagrees: the incremented number REPLACES the whole candidate (the
stripped prefix is stored and immediately overwritten), so the third call
returns "1".  The first two calls do return "foo" and "foo0" as claimed. -/
theorem add_object_suffix_replaces_name :
    addFoo1.2.2 = "foo".data ∧
    addFoo2.2.2 = "foo0".data ∧
    addFoo3.2.2 = "1".data ∧
    ¬ addFoo3.2.2 = "foo1".data := by decide

/-- C3: the claim states every dispatch method removes dead children and
forwards the event to alive ones.  Layer::render does the opposite (its
is_dead test is inverted): on a layer with the alive child (id 5) and the
dead child (id 7), render removes the alive child from both maps without
rendering it and forwards render to the dead child; and Layer::keydown
performs no reaping at all — the dead child stays in both maps and is
forwarded the key event. -/
theorem render_reaps_alive_forwards_dead :
    (reapLayer.render reapWorld).2.objects = [(7, 1)] ∧
    (reapLayer.render reapWorld).2.id_map = [("dead".data, 7)] ∧
    ((reapLayer.render reapWorld).1.get 1).map Obj.renderCalls = some 1 ∧
    ((reapLayer.render reapWorld).1.get 0).map Obj.renderCalls = some 0 ∧
    (reapLayer.keydown reapWorld).2.1.objects = [(5, 0), (7, 1)] ∧
    (reapLayer.keydown reapWorld).2.1.id_map = reapLayer.id_map ∧
    ((reapLayer.keydown reapWorld).1.get 1).map Obj.keydownCalls = some 1 := by
  decide

/-- C4: the claim states a mouse-motion event tagged with window W1's id
(10) is never delivered to another window W2 (id 20).  The delivery test
in main() ends with the disjunct `evt.type != SDL_WINDOWEVENT`, which is
true for every mouse event, so W2 receives the event as well; only
SDL_WINDOWEVENT is actually filtered by window id.  Keydown broadcast
behaves as claimed. -/
theorem mousemotion_delivered_to_other_window :
    deliverToWindow 20 ⟨.mousemotion, 10⟩ = true ∧
    routeEvents 20 [] [⟨.mousemotion, 10⟩] = ([⟨.mousemotion, 10⟩], false) ∧
    routeEvents 10 [] [⟨.mousemotion, 10⟩] = ([⟨.mousemotion, 10⟩], false) ∧
    deliverToWindow 10 ⟨.keydown, 0⟩ = true ∧
    deliverToWindow 20 ⟨.keydown, 0⟩ = true ∧
    deliverToWindow 20 ⟨.windowevent, 10⟩ = false ∧
    deliverToWindow 10 ⟨.windowevent, 10⟩ = true := by decide

/-- C5: the claim states clone() gives every child a distinct identity so
that mutating the clone's children leaves the original's children
untouched.  The code copies the shared_ptr instead of the object: the
clone of a layer with one child (id 3 at address 0) holds the SAME id and
the SAME heap address, and writing position {1,0,0} through the clone's
child handle is visible through the original layer's child.  num_objects
and the name map do coincide as claimed. -/
theorem clone_aliases_children :
    cloneResult.2.num_objects = cloneSrcLayer.num_objects ∧
    cloneResult.2.id_map = cloneSrcLayer.id_map ∧
    cloneResult.2.objects = cloneSrcLayer.objects ∧
    alistLookup cloneResult.2.objects 3 = some 0 ∧
    ((cloneMutatedWorld.get ((alistLookup cloneSrcLayer.objects 3).getD 99)).getD
        defaultObj).position = ⟨1, 0, 0⟩ ∧
    ¬ ((cloneMutatedWorld.get ((alistLookup cloneSrcLayer.objects 3).getD 99)).getD
        defaultObj).position = cloneSrcObj.position := by decide

/-- Once dead, destroy() leaves the object untouched, so iterating it
does nothing. -/
theorem destroyN_of_dead (k : Nat) (o : Obj) (h : o.dead = true) :
    destroyN k o = o := by
  induction k with
  | zero => rfl
  | succ n ih =>
    have hd : o.destroy = o := by simp [Obj.destroy, h]
    simp [destroyN, hd, ih]

/-- C7: destroy() is idempotent: on an already-dead object it changes no
state, and on an alive object any k ≥ 1 calls set the dead flag and
invoke the destroy handler exactly once. -/
theorem destroy_idempotent :
    (∀ o : Obj, o.dead = true → o.destroy = o) ∧
    (∀ (o : Obj) (k : Nat), o.dead = false →
      (destroyN (k + 1) o).dead = true ∧
      (destroyN (k + 1) o).destroyCalls = o.destroyCalls + 1) := by
  constructor
  · intro o h
    simp [Obj.destroy, h]
  · intro o k h
    have h1 : o.destroy = { o with dead := true, destroyCalls := o.destroyCalls + 1 } := by
      simp [Obj.destroy, h]
    have h2 : destroyN (k + 1) o = destroyN k o.destroy := rfl
    rw [h2, h1, destroyN_of_dead k _ rfl]
    exact ⟨rfl, rfl⟩

/-- Witness for C7: three destroy() calls on a freshly constructed object
set the flag and bump the handler count to one; a destroy() on a dead
object is the identity. -/
theorem destroy_idempotent_witness :
    ((destroyN 3 (mkObj defaultHandlers 0).1).dead = true ∧
     (destroyN 3 (mkObj defaultHandlers 0).1).destroyCalls =
       (mkObj defaultHandlers 0).1.destroyCalls + 1) ∧
    Obj.destroy { (mkObj defaultHandlers 0).1 with dead := true } =
      { (mkObj defaultHandlers 0).1 with dead := true } :=
  ⟨destroy_idempotent.2 (mkObj defaultHandlers 0).1 2 (by decide),
   destroy_idempotent.1 { (mkObj defaultHandlers 0).1 with dead := true } (by decide)⟩

/-- C9: for positive elapsed, update(elapsed) advances position by
move_vector * (60/elapsed) and rotation by angle_vector * (60/elapsed),
invokes the update handler with the same elapsed value, and returns the
handler's result (elapsed = 0 is excluded: the scaling divides by
elapsed). -/
theorem object_update_spec :
    ∀ (o : Obj) (elapsed : ℚ), 0 < elapsed →
      (o.update elapsed).1.position = o.position.add (o.moveVector.smul (60 / elapsed)) ∧
      (o.update elapsed).1.rotation = o.rotation.add (o.angleVector.smul (60 / elapsed)) ∧
      (o.update elapsed).1.updateArgs = o.updateArgs ++ [elapsed] ∧
      (o.update elapsed).2 = o.updateResult := by
  intro o elapsed _
  exact ⟨rfl, rfl, rfl, rfl⟩

/-- An object with nonzero velocity vectors, for the update witness. -/
def updTestObj : Obj :=
  { (mkObj defaultHandlers 0).1 with moveVector := ⟨1, 2, 3⟩, angleVector := ⟨4, 5, 6⟩ }

/-- Witness for C9 at elapsed = 2. -/
theorem object_update_spec_witness :
    (updTestObj.update 2).1.position =
      updTestObj.position.add (updTestObj.moveVector.smul (60 / 2)) ∧
    (updTestObj.update 2).1.rotation =
      updTestObj.rotation.add (updTestObj.angleVector.smul (60 / 2)) ∧
    (updTestObj.update 2).1.updateArgs = updTestObj.updateArgs ++ [2] ∧
    (updTestObj.update 2).2 = updTestObj.updateResult :=
  object_update_spec updTestObj 2 (by norm_num)

/-- C10: the first destroy() on a live Layer empties it — num_objects
becomes 0 and every lookup by id or by name returns null — and a second
destroy() leaves it unchanged. -/
theorem layer_destroy_empties :
    ∀ L : Layer, L.own.dead = false →
      L.destroy.num_objects = 0 ∧
      (∀ i, L.destroy.get_object i = none) ∧
      (∀ s, L.destroy.get_object_name s = none) ∧
      L.destroy.destroy = L.destroy := by
  intro L h
  have hd : L.destroy = { own := L.own.destroy, objects := [], id_map := [] } := by
    simp [Layer.destroy, Obj.isDead, h]
  refine ⟨?_, ?_, ?_, ?_⟩
  · simp [hd, Layer.num_objects]
  · intro i
    simp [hd, Layer.get_object, alistLookup]
  · intro s
    simp [hd, Layer.get_object_name, alistLookup]
  · rw [hd]
    have hdd : (L.own.destroy).dead = true := by simp [Obj.destroy, h]
    simp [Layer.destroy, Obj.isDead, hdd]

/-- A layer with one child, for the destroy witness. -/
def destroyTestLayer : Layer :=
  ⟨(mkObj defaultHandlers 8).1, [(5, 0)], [("a".data, 5)]⟩

/-- Witness for C10 on a one-child layer. -/
theorem layer_destroy_empties_witness :
    destroyTestLayer.destroy.num_objects = 0 ∧
    destroyTestLayer.destroy.get_object 5 = none ∧
    destroyTestLayer.destroy.get_object_name "a".data = none ∧
    destroyTestLayer.destroy.destroy = destroyTestLayer.destroy :=
  ⟨(layer_destroy_empties destroyTestLayer (by decide)).1,
   (layer_destroy_empties destroyTestLayer (by decide)).2.1 5,
   (layer_destroy_empties destroyTestLayer (by decide)).2.2.1 "a".data,
   (layer_destroy_empties destroyTestLayer (by decide)).2.2.2⟩

/-- The ids and final counter of a construction sequence, in closed form:
construction i receives id c0 + i and the counter advances by the length
of the sequence. -/
theorem runCtors_ids (ops : List CtorOp) (c0 : Nat) :
    (runCtors ops c0).1.map Obj.getId = (List.range ops.length).map (fun i => c0 + i) ∧
    (runCtors ops c0).2 = c0 + ops.length := by
  induction ops generalizing c0 with
  | nil => simp [runCtors]
  | cons op rest ih =>
    have hid : (runCtor c0 op).1.getId = c0 := by
      cases op <;> rfl
    have hc : (runCtor c0 op).2 = c0 + 1 := by
      cases op <;> rfl
    have hrange : List.range (rest.length + 1) = 0 :: (List.range rest.length).map (· + 1) :=
      List.range_succ_eq_map rest.length
    constructor
    · simp only [runCtors, List.map_cons, hid, hc, (ih (c0 + 1)).1, List.length_cons,
        hrange, List.map_map]
      refine congrArg (c0 :: ·) (List.map_congr_left ?_)
      intro i _
      simp [Function.comp]
      omega
    · simp only [runCtors, hc, (ih (c0 + 1)).2, List.length_cons]
      omega

/-- C8: for any sequence of Object constructions (fresh, copy or clone),
the assigned instance ids are the consecutive values starting at the
counter's prior value — hence strictly increasing and pairwise distinct —
and no id below the running counter is ever handed out again. -/
theorem instance_ids_strictly_increasing :
    ∀ (ops : List CtorOp) (c0 : Nat),
      (runCtors ops c0).1.map Obj.getId = (List.range ops.length).map (fun i => c0 + i) ∧
      ((runCtors ops c0).1.map Obj.getId).Pairwise (· < ·) ∧
      (runCtors ops c0).2 = c0 + ops.length := by
  intro ops c0
  obtain ⟨h1, h2⟩ := runCtors_ids ops c0
  refine ⟨h1, ?_, h2⟩
  rw [h1, List.pairwise_map]
  exact (List.pairwise_lt_range ops.length).imp (by omega)

/-! ## Association-list and heap lemmas -/

section AListLemmas

variable {α β : Type} [DecidableEq α]

/-- Looking up the updated key returns the new value whenever the key was
present. -/
theorem alistLookup_update_self_map (m : List (α × β)) (k : α) (v : β) :
    alistLookup (alistUpdate m k v) k = (alistLookup m k).map (fun _ => v) := by
  induction m with
  | nil => rfl
  | cons p rest ih =>
    simp only [alistUpdate]
    by_cases hk : p.1 = k
    · simp only [if_pos hk, alistLookup, if_pos rfl, if_pos hk]
      rfl
    · simp only [if_neg hk, alistLookup, if_neg hk, ih]

/-- Updating an existing key makes the lookup return the new value. -/
theorem alistLookup_update_self (m : List (α × β)) (k : α) (v : β)
    (h : alistHasKey m k = true) : alistLookup (alistUpdate m k v) k = some v := by
  rw [alistHasKey] at h
  obtain ⟨x, hx⟩ := Option.isSome_iff_exists.mp h
  rw [alistLookup_update_self_map, hx]
  rfl

/-- Updating one key leaves lookups of other keys unchanged. -/
theorem alistLookup_update_other (m : List (α × β)) (k b : α) (v : β)
    (h : b ≠ k) : alistLookup (alistUpdate m k v) b = alistLookup m b := by
  induction m with
  | nil => rfl
  | cons p rest ih =>
    simp only [alistUpdate]
    by_cases hk : p.1 = k
    · simp only [if_pos hk, alistLookup]
      have hkb : ¬ k = b := fun hh => h hh.symm
      have hpb : ¬ p.1 = b := fun hh => hkb (hk.symm.trans hh)
      rw [if_neg hkb, if_neg hpb, ih]
    · simp only [if_neg hk, alistLookup]
      by_cases hpb : p.1 = b
      · rw [if_pos hpb, if_pos hpb]
      · rw [if_neg hpb, if_neg hpb, ih]

/-- Updating a value changes no key presence. -/
theorem alistHasKey_update (m : List (α × β)) (k b : α) (v : β) :
    alistHasKey (alistUpdate m k v) b = alistHasKey m b := by
  by_cases hb : b = k
  · subst hb
    rw [alistHasKey, alistHasKey, alistLookup_update_self_map]
    cases alistLookup m b <;> rfl
  · rw [alistHasKey, alistHasKey, alistLookup_update_other m k b v hb]

end AListLemmas

/-- Writing one heap cell leaves the others unchanged. -/
theorem wget_set_other (w : World) (a b : Nat) (o : Obj) (h : b ≠ a) :
    (w.set a o).get b = w.get b :=
  alistLookup_update_other w.heap a b o h

/-- Writing a live heap cell makes reads return the new object. -/
theorem wget_set_self (w : World) (a : Nat) (o : Obj)
    (h : alistHasKey w.heap a = true) : (w.set a o).get a = some o :=
  alistLookup_update_self w.heap a o h

/-- Writing a heap cell changes no address liveness. -/
theorem whasKey_set (w : World) (a b : Nat) (o : Obj) :
    alistHasKey (w.set a o).heap b = alistHasKey w.heap b :=
  alistHasKey_update w.heap a b o

/-! ## Fan-out dispatch lemmas (Layer::keydown, Layer::update) -/

/-- Unfolding of the keydown child loop at a cons cell. -/
theorem layerKeydownGo_cons (pr : Nat × Nat) (rest : List (Nat × Nat))
    (w : World) (L : Layer) :
    layerKeydownGo (pr :: rest) w L =
      (let c := (w.get pr.2).getD defaultObj
       let w1 := w.set pr.2 { c with keydownCalls := c.keydownCalls + 1 }
       if c.keydownResult then layerKeydownGo rest w1 L else (w1, L, false)) := rfl

/-- One keydown step on a child whose handler answers true: bump its
invocation count and continue with the rest. -/
theorem layerKeydownGo_cons_true (pr : Nat × Nat) (rest : List (Nat × Nat))
    (w : World) (L : Layer)
    (h : ((w.get pr.2).getD defaultObj).keydownResult = true) :
    layerKeydownGo (pr :: rest) w L =
      layerKeydownGo rest
        (w.set pr.2 { (w.get pr.2).getD defaultObj with
          keydownCalls := ((w.get pr.2).getD defaultObj).keydownCalls + 1 }) L := by
  rw [layerKeydownGo_cons]
  simp [h]

/-- One keydown step on a child whose handler answers false: bump its
invocation count and return false with the layer unchanged. -/
theorem layerKeydownGo_cons_false (pr : Nat × Nat) (rest : List (Nat × Nat))
    (w : World) (L : Layer)
    (h : ((w.get pr.2).getD defaultObj).keydownResult = false) :
    layerKeydownGo (pr :: rest) w L =
      (w.set pr.2 { (w.get pr.2).getD defaultObj with
        keydownCalls := ((w.get pr.2).getD defaultObj).keydownCalls + 1 }, L, false) := by
  rw [layerKeydownGo_cons]
  simp [h]

/-- A keydown fan-out over children whose handlers all answer true walks
every child in order, bumps each child's invocation count once, touches no
other heap cell, and finally invokes the layer's own Object-level handler
and returns its result. -/
theorem keydownGo_all_true :
    ∀ (l : List (Nat × Nat)) (w : World) (L : Layer),
      (l.map Prod.snd).Nodup →
      (∀ p ∈ l, alistHasKey w.heap p.2 = true) →
      (∀ p ∈ l, kdResultOf w p = true) →
      (layerKeydownGo l w L).2.1 = { L with own := (L.own.keydown).1 } ∧
      (layerKeydownGo l w L).2.2 = L.own.keydownResult ∧
      (∀ p ∈ l, kdCallsOf (layerKeydownGo l w L).1 p = kdCallsOf w p + 1) ∧
      (∀ b, b ∉ l.map Prod.snd → ((layerKeydownGo l w L).1.get b) = w.get b) := by
  intro l
  induction l with
  | nil =>
    intro w L _ _ _
    refine ⟨rfl, rfl, ?_, ?_⟩
    · intro p hp
      exact absurd hp (List.not_mem_nil p)
    · intro b _
      rfl
  | cons pr rest ih =>
    intro w L hno hkey hres
    have hno' : (rest.map Prod.snd).Nodup := (List.nodup_cons.mp hno).2
    have hhead : pr.2 ∉ rest.map Prod.snd := (List.nodup_cons.mp hno).1
    have hcr : ((w.get pr.2).getD defaultObj).keydownResult = true :=
      hres pr (List.mem_cons_self pr rest)
    rw [layerKeydownGo_cons_true pr rest w L hcr]
    set w1 := w.set pr.2 { (w.get pr.2).getD defaultObj with
      keydownCalls := ((w.get pr.2).getD defaultObj).keydownCalls + 1 } with hw1
    have hkey1 : ∀ p ∈ rest, alistHasKey w1.heap p.2 = true := by
      intro p hp
      rw [hw1, whasKey_set]
      exact hkey p (List.mem_cons_of_mem pr hp)
    have hres1 : ∀ p ∈ rest, kdResultOf w1 p = true := by
      intro p hp
      have hne : p.2 ≠ pr.2 := fun hh => hhead (hh ▸ List.mem_map_of_mem Prod.snd hp)
      rw [kdResultOf, hw1, wget_set_other w pr.2 p.2 _ hne]
      exact hres p (List.mem_cons_of_mem pr hp)
    obtain ⟨ih1, ih2, ih3, ih4⟩ := ih w1 L hno' hkey1 hres1
    refine ⟨ih1, ih2, ?_, ?_⟩
    · intro p hp
      rcases List.mem_cons.mp hp with hph | hpt
      · subst hph
        have hget : (layerKeydownGo rest w1 L).1.get p.2 = w1.get p.2 := ih4 p.2 hhead
        rw [kdCallsOf, hget, hw1,
          wget_set_self w p.2 _ (hkey p (List.mem_cons_self p rest))]
        rfl
      · have hne : p.2 ≠ pr.2 := fun hh => hhead (hh ▸ List.mem_map_of_mem Prod.snd hpt)
        rw [ih3 p hpt, kdCallsOf, hw1, wget_set_other w pr.2 p.2 _ hne]
        rfl
    · intro b hb
      have hb1 : b ∉ rest.map Prod.snd := fun hh => hb (List.mem_cons_of_mem pr.2 hh)
      have hbne : b ≠ pr.2 := fun hh => hb (hh ▸ List.mem_cons_self pr.2 (rest.map Prod.snd))
      rw [ih4 b hb1, hw1, wget_set_other w pr.2 b _ hbne]

/-- A keydown fan-out short-circuits at the first child whose handler
answers false: the children before it are each invoked once, the vetoing
child is invoked, the layer is returned unchanged (its own handler is not
invoked), the result is false, and no heap cell outside the visited
children changes. -/
theorem keydownGo_shortcircuit :
    ∀ (pre : List (Nat × Nat)) (c : Nat × Nat) (post : List (Nat × Nat))
      (w : World) (L : Layer),
      (((pre ++ c :: post).map Prod.snd)).Nodup →
      (∀ p ∈ pre ++ c :: post, alistHasKey w.heap p.2 = true) →
      (∀ p ∈ pre, kdResultOf w p = true) →
      kdResultOf w c = false →
      (layerKeydownGo (pre ++ c :: post) w L).2.1 = L ∧
      (layerKeydownGo (pre ++ c :: post) w L).2.2 = false ∧
      (∀ p ∈ pre, kdCallsOf (layerKeydownGo (pre ++ c :: post) w L).1 p = kdCallsOf w p + 1) ∧
      kdCallsOf (layerKeydownGo (pre ++ c :: post) w L).1 c = kdCallsOf w c + 1 ∧
      (∀ b, b ∉ (pre ++ [c]).map Prod.snd →
        ((layerKeydownGo (pre ++ c :: post) w L).1.get b) = w.get b) := by
  intro pre
  induction pre with
  | nil =>
    intro c post w L hno hkey hres hcr
    have hcr' : ((w.get c.2).getD defaultObj).keydownResult = false := hcr
    rw [List.nil_append, layerKeydownGo_cons_false c post w L hcr']
    refine ⟨rfl, rfl, ?_, ?_, ?_⟩
    · intro p hp
      exact absurd hp (List.not_mem_nil p)
    · rw [kdCallsOf,
        wget_set_self w c.2 _ (hkey c (List.mem_cons_self c post))]
      rfl
    · intro b hb
      have hbne : b ≠ c.2 := by
        intro hh
        exact hb (by simp [hh])
      exact wget_set_other w c.2 b _ hbne
  | cons pr pre' ih =>
    intro c post w L hno hkey hres hcr
    have hcons : (pr :: pre') ++ c :: post = pr :: (pre' ++ c :: post) := rfl
    rw [hcons] at hno hkey ⊢
    have hno' : ((pre' ++ c :: post).map Prod.snd).Nodup := (List.nodup_cons.mp hno).2
    have hhead : pr.2 ∉ (pre' ++ c :: post).map Prod.snd := (List.nodup_cons.mp hno).1
    have hc0r : ((w.get pr.2).getD defaultObj).keydownResult = true :=
      hres pr (List.mem_cons_self pr pre')
    rw [layerKeydownGo_cons_true pr (pre' ++ c :: post) w L hc0r]
    set w1 := w.set pr.2 { (w.get pr.2).getD defaultObj with
      keydownCalls := ((w.get pr.2).getD defaultObj).keydownCalls + 1 } with hw1
    have hkey1 : ∀ p ∈ pre' ++ c :: post, alistHasKey w1.heap p.2 = true := by
      intro p hp
      rw [hw1, whasKey_set]
      exact hkey p (List.mem_cons_of_mem pr hp)
    have hcne : c.2 ≠ pr.2 := by
      intro hh
      exact hhead (hh ▸ List.mem_map_of_mem Prod.snd
        (List.mem_append_right pre' (List.mem_cons_self c post)))
    have hres1 : ∀ p ∈ pre', kdResultOf w1 p = true := by
      intro p hp
      have hne : p.2 ≠ pr.2 := fun hh =>
        hhead (hh ▸ List.mem_map_of_mem Prod.snd (List.mem_append_left _ hp))
      rw [kdResultOf, hw1, wget_set_other w pr.2 p.2 _ hne]
      exact hres p (List.mem_cons_of_mem pr hp)
    have hcr1 : kdResultOf w1 c = false := by
      rw [kdResultOf, hw1, wget_set_other w pr.2 c.2 _ hcne]
      exact hcr
    obtain ⟨ih1, ih2, ih3, ih4, ih5⟩ := ih c post w1 L hno' hkey1 hres1 hcr1
    have hprenotin : pr.2 ∉ (pre' ++ [c]).map Prod.snd := by
      intro hh
      apply hhead
      rcases List.mem_map.mp hh with ⟨q, hq, hq2⟩
      rcases List.mem_append.mp hq with hql | hqr
      · exact hq2 ▸ List.mem_map_of_mem Prod.snd (List.mem_append_left _ hql)
      · have : q = c := List.mem_singleton.mp hqr
        subst this
        exact hq2 ▸ List.mem_map_of_mem Prod.snd
          (List.mem_append_right pre' (List.mem_cons_self q post))
    refine ⟨ih1, ih2, ?_, ?_, ?_⟩
    · intro p hp
      rcases List.mem_cons.mp hp with hph | hpt
      · subst hph
        rw [kdCallsOf, ih5 p.2 hprenotin, hw1,
          wget_set_self w p.2 _ (hkey p (List.mem_cons_self p _))]
        rfl
      · have hne : p.2 ≠ pr.2 := fun hh =>
          hhead (hh ▸ List.mem_map_of_mem Prod.snd (List.mem_append_left _ hpt))
        rw [ih3 p hpt, kdCallsOf, hw1, wget_set_other w pr.2 p.2 _ hne]
        rfl
    · rw [ih4, kdCallsOf, hw1, wget_set_other w pr.2 c.2 _ hcne]
      rfl
    · intro b hb
      have hb1 : b ∉ (pre' ++ [c]).map Prod.snd := by
        intro hh
        apply hb
        rcases List.mem_map.mp hh with ⟨q, hq, hq2⟩
        rcases List.mem_append.mp hq with hql | hqr
        · exact hq2 ▸ List.mem_map_of_mem Prod.snd
            (List.mem_cons_of_mem pr (List.mem_append_left _ hql))
        · have : q = c := List.mem_singleton.mp hqr
          subst this
          exact hq2 ▸ List.mem_map_of_mem Prod.snd
            (List.mem_cons_of_mem pr (List.mem_append_right pre' (List.mem_singleton.mpr rfl)))
      have hbne : b ≠ pr.2 := by
        intro hh
        apply hb
        exact hh ▸ List.mem_map_of_mem Prod.snd (List.mem_cons_self pr _)
      rw [ih5 b hb1, hw1, wget_set_other w pr.2 b _ hbne]

/-- Unfolding of the update child loop at a cons cell. -/
theorem layerUpdateGo_cons (elapsed : ℚ) (pr : Nat × Nat) (rest : List (Nat × Nat))
    (w : World) (L : Layer) :
    layerUpdateGo elapsed (pr :: rest) w L =
      (let c := (w.get pr.2).getD defaultObj
       if c.isDead then layerUpdateGo elapsed rest w (L.remove_object_ptr pr.2)
       else
         let w1 := w.set pr.2 (c.update elapsed).1
         if (c.update elapsed).2 then layerUpdateGo elapsed rest w1 L
         else (w1, L, false)) := rfl

/-- One update step on an alive child whose handler answers true. -/
theorem layerUpdateGo_cons_true (elapsed : ℚ) (pr : Nat × Nat) (rest : List (Nat × Nat))
    (w : World) (L : Layer)
    (hd : ((w.get pr.2).getD defaultObj).dead = false)
    (hr : ((w.get pr.2).getD defaultObj).updateResult = true) :
    layerUpdateGo elapsed (pr :: rest) w L =
      layerUpdateGo elapsed rest
        (w.set pr.2 (((w.get pr.2).getD defaultObj).update elapsed).1) L := by
  rw [layerUpdateGo_cons]
  have hr2 : (((w.get pr.2).getD defaultObj).update elapsed).2 = true := hr
  simp only [Obj.isDead, hd, Bool.false_eq_true, if_false, hr2, if_true]

/-- One update step on an alive child whose handler answers false: the
loop returns false with the layer unchanged. -/
theorem layerUpdateGo_cons_false (elapsed : ℚ) (pr : Nat × Nat) (rest : List (Nat × Nat))
    (w : World) (L : Layer)
    (hd : ((w.get pr.2).getD defaultObj).dead = false)
    (hr : ((w.get pr.2).getD defaultObj).updateResult = false) :
    layerUpdateGo elapsed (pr :: rest) w L =
      (w.set pr.2 (((w.get pr.2).getD defaultObj).update elapsed).1, L, false) := by
  rw [layerUpdateGo_cons]
  have hr2 : (((w.get pr.2).getD defaultObj).update elapsed).2 = false := hr
  simp only [Obj.isDead, hd, Bool.false_eq_true, if_false, hr2]

/-- An update fan-out over alive children whose handlers all answer true
walks every child in order, hands each the same elapsed value once,
touches no other heap cell, and finally invokes Object::update on the
layer itself and returns its handler's result. -/
theorem updateGo_all_true :
    ∀ (l : List (Nat × Nat)) (w : World) (L : Layer) (elapsed : ℚ),
      (l.map Prod.snd).Nodup →
      (∀ p ∈ l, alistHasKey w.heap p.2 = true) →
      (∀ p ∈ l, deadOf w p = false) →
      (∀ p ∈ l, updResultOf w p = true) →
      (layerUpdateGo elapsed l w L).2.1 = { L with own := (L.own.update elapsed).1 } ∧
      (layerUpdateGo elapsed l w L).2.2 = L.own.updateResult ∧
      (∀ p ∈ l, updArgsOf (layerUpdateGo elapsed l w L).1 p = updArgsOf w p ++ [elapsed]) ∧
      (∀ b, b ∉ l.map Prod.snd → ((layerUpdateGo elapsed l w L).1.get b) = w.get b) := by
  intro l
  induction l with
  | nil =>
    intro w L elapsed _ _ _ _
    refine ⟨rfl, rfl, ?_, ?_⟩
    · intro p hp
      exact absurd hp (List.not_mem_nil p)
    · intro b _
      rfl
  | cons pr rest ih =>
    intro w L elapsed hno hkey hdead hres
    have hno' : (rest.map Prod.snd).Nodup := (List.nodup_cons.mp hno).2
    have hhead : pr.2 ∉ rest.map Prod.snd := (List.nodup_cons.mp hno).1
    have hd : ((w.get pr.2).getD defaultObj).dead = false :=
      hdead pr (List.mem_cons_self pr rest)
    have hcr : ((w.get pr.2).getD defaultObj).updateResult = true :=
      hres pr (List.mem_cons_self pr rest)
    rw [layerUpdateGo_cons_true elapsed pr rest w L hd hcr]
    set w1 := w.set pr.2 (((w.get pr.2).getD defaultObj).update elapsed).1 with hw1
    have hkey1 : ∀ p ∈ rest, alistHasKey w1.heap p.2 = true := by
      intro p hp
      rw [hw1, whasKey_set]
      exact hkey p (List.mem_cons_of_mem pr hp)
    have hdead1 : ∀ p ∈ rest, deadOf w1 p = false := by
      intro p hp
      have hne : p.2 ≠ pr.2 := fun hh => hhead (hh ▸ List.mem_map_of_mem Prod.snd hp)
      rw [deadOf, hw1, wget_set_other w pr.2 p.2 _ hne]
      exact hdead p (List.mem_cons_of_mem pr hp)
    have hres1 : ∀ p ∈ rest, updResultOf w1 p = true := by
      intro p hp
      have hne : p.2 ≠ pr.2 := fun hh => hhead (hh ▸ List.mem_map_of_mem Prod.snd hp)
      rw [updResultOf, hw1, wget_set_other w pr.2 p.2 _ hne]
      exact hres p (List.mem_cons_of_mem pr hp)
    obtain ⟨ih1, ih2, ih3, ih4⟩ := ih w1 L elapsed hno' hkey1 hdead1 hres1
    refine ⟨ih1, ih2, ?_, ?_⟩
    · intro p hp
      rcases List.mem_cons.mp hp with hph | hpt
      · subst hph
        have hget : (layerUpdateGo elapsed rest w1 L).1.get p.2 = w1.get p.2 :=
          ih4 p.2 hhead
        rw [updArgsOf, hget, hw1,
          wget_set_self w p.2 _ (hkey p (List.mem_cons_self p rest))]
        rfl
      · have hne : p.2 ≠ pr.2 := fun hh => hhead (hh ▸ List.mem_map_of_mem Prod.snd hpt)
        rw [ih3 p hpt, updArgsOf, hw1, wget_set_other w pr.2 p.2 _ hne]
        rfl
    · intro b hb
      have hb1 : b ∉ rest.map Prod.snd := fun hh => hb (List.mem_cons_of_mem pr.2 hh)
      have hbne : b ≠ pr.2 := fun hh => hb (hh ▸ List.mem_cons_self pr.2 (rest.map Prod.snd))
      rw [ih4 b hb1, hw1, wget_set_other w pr.2 b _ hbne]

/-- An update fan-out short-circuits at the first alive child whose
handler answers false: the alive children before it each receive the
elapsed value once, the vetoing child receives it, the layer is returned
unchanged (Object::update on the layer itself is not run), the result is
false, and no heap cell outside the visited children changes. -/
theorem updateGo_shortcircuit :
    ∀ (pre : List (Nat × Nat)) (c : Nat × Nat) (post : List (Nat × Nat))
      (w : World) (L : Layer) (elapsed : ℚ),
      ((pre ++ c :: post).map Prod.snd).Nodup →
      (∀ p ∈ pre ++ c :: post, alistHasKey w.heap p.2 = true) →
      (∀ p ∈ pre, deadOf w p = false) →
      (∀ p ∈ pre, updResultOf w p = true) →
      deadOf w c = false →
      updResultOf w c = false →
      (layerUpdateGo elapsed (pre ++ c :: post) w L).2.1 = L ∧
      (layerUpdateGo elapsed (pre ++ c :: post) w L).2.2 = false ∧
      (∀ p ∈ pre, updArgsOf (layerUpdateGo elapsed (pre ++ c :: post) w L).1 p =
        updArgsOf w p ++ [elapsed]) ∧
      updArgsOf (layerUpdateGo elapsed (pre ++ c :: post) w L).1 c =
        updArgsOf w c ++ [elapsed] ∧
      (∀ b, b ∉ (pre ++ [c]).map Prod.snd →
        ((layerUpdateGo elapsed (pre ++ c :: post) w L).1.get b) = w.get b) := by
  intro pre
  induction pre with
  | nil =>
    intro c post w L elapsed hno hkey hpredead hpreres hcd hcr
    have hcd' : ((w.get c.2).getD defaultObj).dead = false := hcd
    have hcr' : ((w.get c.2).getD defaultObj).updateResult = false := hcr
    rw [List.nil_append, layerUpdateGo_cons_false elapsed c post w L hcd' hcr']
    refine ⟨rfl, rfl, ?_, ?_, ?_⟩
    · intro p hp
      exact absurd hp (List.not_mem_nil p)
    · rw [updArgsOf,
        wget_set_self w c.2 _ (hkey c (List.mem_cons_self c post))]
      rfl
    · intro b hb
      have hbne : b ≠ c.2 := by
        intro hh
        exact hb (by simp [hh])
      exact wget_set_other w c.2 b _ hbne
  | cons pr pre' ih =>
    intro c post w L elapsed hno hkey hpredead hpreres hcd hcr
    have hcons : (pr :: pre') ++ c :: post = pr :: (pre' ++ c :: post) := rfl
    rw [hcons] at hno hkey ⊢
    have hno' : ((pre' ++ c :: post).map Prod.snd).Nodup := (List.nodup_cons.mp hno).2
    have hhead : pr.2 ∉ (pre' ++ c :: post).map Prod.snd := (List.nodup_cons.mp hno).1
    have hd : ((w.get pr.2).getD defaultObj).dead = false :=
      hpredead pr (List.mem_cons_self pr pre')
    have hc0r : ((w.get pr.2).getD defaultObj).updateResult = true :=
      hpreres pr (List.mem_cons_self pr pre')
    rw [layerUpdateGo_cons_true elapsed pr (pre' ++ c :: post) w L hd hc0r]
    set w1 := w.set pr.2 (((w.get pr.2).getD defaultObj).update elapsed).1 with hw1
    have hkey1 : ∀ p ∈ pre' ++ c :: post, alistHasKey w1.heap p.2 = true := by
      intro p hp
      rw [hw1, whasKey_set]
      exact hkey p (List.mem_cons_of_mem pr hp)
    have hcne : c.2 ≠ pr.2 := by
      intro hh
      exact hhead (hh ▸ List.mem_map_of_mem Prod.snd
        (List.mem_append_right pre' (List.mem_cons_self c post)))
    have hpredead1 : ∀ p ∈ pre', deadOf w1 p = false := by
      intro p hp
      have hne : p.2 ≠ pr.2 := fun hh =>
        hhead (hh ▸ List.mem_map_of_mem Prod.snd (List.mem_append_left _ hp))
      rw [deadOf, hw1, wget_set_other w pr.2 p.2 _ hne]
      exact hpredead p (List.mem_cons_of_mem pr hp)
    have hpreres1 : ∀ p ∈ pre', updResultOf w1 p = true := by
      intro p hp
      have hne : p.2 ≠ pr.2 := fun hh =>
        hhead (hh ▸ List.mem_map_of_mem Prod.snd (List.mem_append_left _ hp))
      rw [updResultOf, hw1, wget_set_other w pr.2 p.2 _ hne]
      exact hpreres p (List.mem_cons_of_mem pr hp)
    have hcd1 : deadOf w1 c = false := by
      rw [deadOf, hw1, wget_set_other w pr.2 c.2 _ hcne]
      exact hcd
    have hcr1 : updResultOf w1 c = false := by
      rw [updResultOf, hw1, wget_set_other w pr.2 c.2 _ hcne]
      exact hcr
    obtain ⟨ih1, ih2, ih3, ih4, ih5⟩ :=
      ih c post w1 L elapsed hno' hkey1 hpredead1 hpreres1 hcd1 hcr1
    have hprenotin : pr.2 ∉ (pre' ++ [c]).map Prod.snd := by
      intro hh
      apply hhead
      rcases List.mem_map.mp hh with ⟨q, hq, hq2⟩
      rcases List.mem_append.mp hq with hql | hqr
      · exact hq2 ▸ List.mem_map_of_mem Prod.snd (List.mem_append_left _ hql)
      · have : q = c := List.mem_singleton.mp hqr
        subst this
        exact hq2 ▸ List.mem_map_of_mem Prod.snd
          (List.mem_append_right pre' (List.mem_cons_self q post))
    refine ⟨ih1, ih2, ?_, ?_, ?_⟩
    · intro p hp
      rcases List.mem_cons.mp hp with hph | hpt
      · subst hph
        rw [updArgsOf, ih5 p.2 hprenotin, hw1,
          wget_set_self w p.2 _ (hkey p (List.mem_cons_self p _))]
        rfl
      · have hne : p.2 ≠ pr.2 := fun hh =>
          hhead (hh ▸ List.mem_map_of_mem Prod.snd (List.mem_append_left _ hpt))
        rw [ih3 p hpt, updArgsOf, hw1, wget_set_other w pr.2 p.2 _ hne]
        rfl
    · rw [ih4, updArgsOf, hw1, wget_set_other w pr.2 c.2 _ hcne]
      rfl
    · intro b hb
      have hb1 : b ∉ (pre' ++ [c]).map Prod.snd := by
        intro hh
        apply hb
        rcases List.mem_map.mp hh with ⟨q, hq, hq2⟩
        rcases List.mem_append.mp hq with hql | hqr
        · exact hq2 ▸ List.mem_map_of_mem Prod.snd
            (List.mem_cons_of_mem pr (List.mem_append_left _ hql))
        · have : q = c := List.mem_singleton.mp hqr
          subst this
          exact hq2 ▸ List.mem_map_of_mem Prod.snd
            (List.mem_cons_of_mem pr (List.mem_append_right pre' (List.mem_singleton.mpr rfl)))
      have hbne : b ≠ pr.2 := by
        intro hh
        apply hb
        exact hh ▸ List.mem_map_of_mem Prod.snd (List.mem_cons_self pr _)
      rw [ih5 b hb1, hw1, wget_set_other w pr.2 b _ hbne]

/-- A child occurring after the vetoing one holds an address outside the
visited prefix (when the children's addresses are distinct). -/
theorem post_snd_not_visited {pre post : List (Nat × Nat)} {c p : Nat × Nat}
    (hno : ((pre ++ c :: post).map Prod.snd).Nodup) (hp : p ∈ post) :
    p.2 ∉ (pre ++ [c]).map Prod.snd := by
  intro hh
  rw [List.map_append, List.map_cons] at hno
  rcases List.mem_map.mp hh with ⟨q, hq, hq2⟩
  rcases List.mem_append.mp hq with hql | hqr
  · have hdisj := (List.nodup_append.mp hno).2.2
    exact hdisj (hq2 ▸ List.mem_map_of_mem Prod.snd hql)
      (List.mem_cons_of_mem c.2 (List.mem_map_of_mem Prod.snd hp))
  · have hqc : q = c := List.mem_singleton.mp hqr
    rw [hqc] at hq2
    have hcons := (List.nodup_append.mp hno).2.1
    have hcp : c.2 ∉ post.map Prod.snd := (List.nodup_cons.mp hcons).1
    exact hcp (hq2 ▸ List.mem_map_of_mem Prod.snd hp)

/-- C2: for the boolean-returning dispatch methods, modelled by keydown
and update, the children are visited in order; the first child whose
handler answers false makes the Layer's method return false immediately,
with the children after it not invoked and the Layer's own Object-level
handler skipped (the layer is returned unchanged); when no child answers
false, every child is invoked once and the Layer's own handler runs last,
its result being returned.  Children are assumed alive for update (dead
handling is the reaping behaviour of C3) and to hold distinct live
addresses. -/
theorem layer_dispatch_short_circuit :
    (∀ (w : World) (L : Layer) (pre : List (Nat × Nat)) (c : Nat × Nat)
       (post : List (Nat × Nat)),
      L.objects = pre ++ c :: post →
      (L.objects.map Prod.snd).Nodup →
      (∀ p ∈ L.objects, alistHasKey w.heap p.2 = true) →
      (∀ p ∈ pre, kdResultOf w p = true) →
      kdResultOf w c = false →
      (L.keydown w).2.1 = L ∧
      (L.keydown w).2.2 = false ∧
      (∀ p ∈ pre, kdCallsOf (L.keydown w).1 p = kdCallsOf w p + 1) ∧
      kdCallsOf (L.keydown w).1 c = kdCallsOf w c + 1 ∧
      (∀ p ∈ post, kdCallsOf (L.keydown w).1 p = kdCallsOf w p)) ∧
    (∀ (w : World) (L : Layer),
      (L.objects.map Prod.snd).Nodup →
      (∀ p ∈ L.objects, alistHasKey w.heap p.2 = true) →
      (∀ p ∈ L.objects, kdResultOf w p = true) →
      (L.keydown w).2.1 = { L with own := (L.own.keydown).1 } ∧
      (L.keydown w).2.2 = L.own.keydownResult ∧
      (∀ p ∈ L.objects, kdCallsOf (L.keydown w).1 p = kdCallsOf w p + 1)) ∧
    (∀ (w : World) (L : Layer) (elapsed : ℚ) (pre : List (Nat × Nat))
       (c : Nat × Nat) (post : List (Nat × Nat)),
      L.objects = pre ++ c :: post →
      (L.objects.map Prod.snd).Nodup →
      (∀ p ∈ L.objects, alistHasKey w.heap p.2 = true) →
      (∀ p ∈ pre, deadOf w p = false) →
      (∀ p ∈ pre, updResultOf w p = true) →
      deadOf w c = false →
      updResultOf w c = false →
      (L.update w elapsed).2.1 = L ∧
      (L.update w elapsed).2.2 = false ∧
      (∀ p ∈ pre, updArgsOf (L.update w elapsed).1 p = updArgsOf w p ++ [elapsed]) ∧
      updArgsOf (L.update w elapsed).1 c = updArgsOf w c ++ [elapsed] ∧
      (∀ p ∈ post, updArgsOf (L.update w elapsed).1 p = updArgsOf w p)) ∧
    (∀ (w : World) (L : Layer) (elapsed : ℚ),
      (L.objects.map Prod.snd).Nodup →
      (∀ p ∈ L.objects, alistHasKey w.heap p.2 = true) →
      (∀ p ∈ L.objects, deadOf w p = false) →
      (∀ p ∈ L.objects, updResultOf w p = true) →
      (L.update w elapsed).2.1 = { L with own := (L.own.update elapsed).1 } ∧
      (L.update w elapsed).2.2 = L.own.updateResult ∧
      (∀ p ∈ L.objects, updArgsOf (L.update w elapsed).1 p = updArgsOf w p ++ [elapsed])) := by
  refine ⟨?_, ?_, ?_, ?_⟩
  · intro w L pre c post hobj hno hkey hpres hcres
    rw [hobj] at hno hkey
    have hkd : L.keydown w = layerKeydownGo (pre ++ c :: post) w L := by
      rw [Layer.keydown, hobj]
    obtain ⟨h1, h2, h3, h4, h5⟩ := keydownGo_shortcircuit pre c post w L hno hkey hpres hcres
    rw [hkd]
    refine ⟨h1, h2, h3, h4, ?_⟩
    intro p hp
    rw [kdCallsOf, h5 p.2 (post_snd_not_visited hno hp)]
    rfl
  · intro w L hno hkey hres
    have hkd : L.keydown w = layerKeydownGo L.objects w L := rfl
    obtain ⟨h1, h2, h3, _⟩ := keydownGo_all_true L.objects w L hno hkey hres
    rw [hkd]
    exact ⟨h1, h2, h3⟩
  · intro w L elapsed pre c post hobj hno hkey hpredead hpreres hcd hcres
    rw [hobj] at hno hkey
    have hup : L.update w elapsed = layerUpdateGo elapsed (pre ++ c :: post) w L := by
      rw [Layer.update, hobj]
    obtain ⟨h1, h2, h3, h4, h5⟩ :=
      updateGo_shortcircuit pre c post w L elapsed hno hkey hpredead hpreres hcd hcres
    rw [hup]
    refine ⟨h1, h2, h3, h4, ?_⟩
    intro p hp
    rw [updArgsOf, h5 p.2 (post_snd_not_visited hno hp)]
    rfl
  · intro w L elapsed hno hkey hdead hres
    have hup : L.update w elapsed = layerUpdateGo elapsed L.objects w L := rfl
    obtain ⟨h1, h2, h3, _⟩ := updateGo_all_true L.objects w L elapsed hno hkey hdead hres
    rw [hup]
    exact ⟨h1, h2, h3⟩

/-- Heap for the dispatch witness: children with ids 1 (handlers true),
2 (handlers false) and 3 (handlers true) at addresses 0, 1, 2. -/
def dispatchWorld : World :=
  ⟨[(0, (mkObj ⟨true, true⟩ 1).1), (1, (mkObj ⟨false, false⟩ 2).1),
    (2, (mkObj ⟨true, true⟩ 3).1)], 3, 5⟩

/-- A layer with children 1, 2, 3 in order (child 2 vetoes). -/
def dispatchLayer : Layer :=
  ⟨(mkObj defaultHandlers 4).1, [(1, 0), (2, 1), (3, 2)],
   [("a".data, 1), ("b".data, 2), ("c".data, 3)]⟩

/-- A layer with only the two non-vetoing children 1 and 3. -/
def allTrueLayer : Layer :=
  ⟨(mkObj defaultHandlers 4).1, [(1, 0), (3, 2)],
   [("a".data, 1), ("c".data, 3)]⟩

/-- Witness for C2: concrete short-circuit and all-true runs of keydown
and update on the three-child heap. -/
theorem layer_dispatch_short_circuit_witness :
    ((dispatchLayer.keydown dispatchWorld).2.1 = dispatchLayer ∧
     (dispatchLayer.keydown dispatchWorld).2.2 = false ∧
     kdCallsOf (dispatchLayer.keydown dispatchWorld).1 (1, 0) =
       kdCallsOf dispatchWorld (1, 0) + 1 ∧
     kdCallsOf (dispatchLayer.keydown dispatchWorld).1 (2, 1) =
       kdCallsOf dispatchWorld (2, 1) + 1 ∧
     kdCallsOf (dispatchLayer.keydown dispatchWorld).1 (3, 2) =
       kdCallsOf dispatchWorld (3, 2)) ∧
    ((allTrueLayer.keydown dispatchWorld).2.2 = allTrueLayer.own.keydownResult ∧
     kdCallsOf (allTrueLayer.keydown dispatchWorld).1 (3, 2) =
       kdCallsOf dispatchWorld (3, 2) + 1) ∧
    ((dispatchLayer.update dispatchWorld 2).2.1 = dispatchLayer ∧
     (dispatchLayer.update dispatchWorld 2).2.2 = false ∧
     updArgsOf (dispatchLayer.update dispatchWorld 2).1 (2, 1) =
       updArgsOf dispatchWorld (2, 1) ++ [2] ∧
     updArgsOf (dispatchLayer.update dispatchWorld 2).1 (3, 2) =
       updArgsOf dispatchWorld (3, 2)) ∧
    ((allTrueLayer.update dispatchWorld 2).2.2 = allTrueLayer.own.updateResult ∧
     updArgsOf (allTrueLayer.update dispatchWorld 2).1 (1, 0) =
       updArgsOf dispatchWorld (1, 0) ++ [2]) := by
  have hA := layer_dispatch_short_circuit.1 dispatchWorld dispatchLayer
    [(1, 0)] (2, 1) [(3, 2)] rfl (by decide) (by decide) (by decide) (by decide)
  have hB := layer_dispatch_short_circuit.2.1 dispatchWorld allTrueLayer
    (by decide) (by decide) (by decide)
  have hC := layer_dispatch_short_circuit.2.2.1 dispatchWorld dispatchLayer 2
    [(1, 0)] (2, 1) [(3, 2)] rfl (by decide) (by decide) (by decide) (by decide)
    (by decide) (by decide)
  have hD := layer_dispatch_short_circuit.2.2.2 dispatchWorld allTrueLayer 2
    (by decide) (by decide) (by decide) (by decide)
  refine ⟨⟨hA.1, hA.2.1, hA.2.2.1 (1, 0) (by decide), hA.2.2.2.1,
      hA.2.2.2.2 (3, 2) (by decide)⟩,
    ⟨hB.2.1, hB.2.2 (3, 2) (by decide)⟩,
    ⟨hC.1, hC.2.1, hC.2.2.2.1, hC.2.2.2.2 (3, 2) (by decide)⟩,
    ⟨hD.2.1, hD.2.2 (1, 0) (by decide)⟩⟩

/-! ## Decimal strings: facts about natToStr, strToNat and lastDigitRun -/

/-- The code point of a digit character. -/
theorem digitChar_toNat {d : Nat} (hd : d < 10) : (digitChar d).toNat = 48 + d := by
  interval_cases d <;> decide

/-- Digit characters pass the digit test. -/
theorem isDigitChar_digitChar {d : Nat} (hd : d < 10) : isDigitChar (digitChar d) = true := by
  interval_cases d <;> decide

/-- Digit characters decode to their value. -/
theorem digitVal_digitChar {d : Nat} (hd : d < 10) : digitVal (digitChar d) = d := by
  rw [digitVal, digitChar_toNat hd]
  omega

/-- natToStrAux yields a nonempty string when fuelled adequately. -/
theorem natToStrAux_ne_nil : ∀ fuel n, n < fuel → natToStrAux fuel n ≠ [] := by
  intro fuel
  induction fuel with
  | zero =>
    intro n hn
    omega
  | succ f _ =>
    intro n _
    by_cases h10 : n < 10
    · simp [natToStrAux, h10]
    · simp [natToStrAux, h10]

/-- Every character natToStrAux produces is a digit. -/
theorem natToStrAux_all_digits :
    ∀ fuel n, n < fuel → ∀ c ∈ natToStrAux fuel n, isDigitChar c = true := by
  intro fuel
  induction fuel with
  | zero =>
    intro n hn
    omega
  | succ f ih =>
    intro n hn c hc
    by_cases h10 : n < 10
    · simp only [natToStrAux, if_pos h10, List.mem_singleton] at hc
      exact hc ▸ isDigitChar_digitChar h10
    · simp only [natToStrAux, if_neg h10] at hc
      rcases List.mem_append.mp hc with hl | hr
      · have hdiv : n / 10 < n := Nat.div_lt_self (by omega) (by omega)
        exact ih (n / 10) (by omega) c hl
      · have : c = digitChar (n % 10) := List.mem_singleton.mp hr
        exact this ▸ isDigitChar_digitChar (Nat.mod_lt n (by omega))

/-- Folding decimal digits over an appended digit. -/
theorem strToNat_append_digit (xs : List Char) (c : Char) :
    strToNat (xs ++ [c]) = strToNat xs * 10 + digitVal c := by
  rw [strToNat, strToNat, List.foldl_append]
  rfl

/-- natToStrAux round-trips through strToNat. -/
theorem strToNat_natToStrAux : ∀ fuel n, n < fuel → strToNat (natToStrAux fuel n) = n := by
  intro fuel
  induction fuel with
  | zero =>
    intro n hn
    omega
  | succ f ih =>
    intro n hn
    by_cases h10 : n < 10
    · simp only [natToStrAux, if_pos h10]
      show 0 * 10 + digitVal (digitChar n) = n
      rw [digitVal_digitChar h10]
      omega
    · simp only [natToStrAux, if_neg h10]
      rw [strToNat_append_digit]
      have hdiv : n / 10 < n := Nat.div_lt_self (by omega) (by omega)
      rw [ih (n / 10) (by omega), digitVal_digitChar (Nat.mod_lt n (by omega))]
      omega

/-- natToStr is a nonempty string. -/
theorem natToStr_ne_nil (n : Nat) : natToStr n ≠ [] :=
  natToStrAux_ne_nil (n + 1) n (Nat.lt_succ_self n)

/-- natToStr produces only digits. -/
theorem natToStr_all_digits (n : Nat) : ∀ c ∈ natToStr n, isDigitChar c = true :=
  natToStrAux_all_digits (n + 1) n (Nat.lt_succ_self n)

/-- std::to_string then std::stoi is the identity. -/
theorem strToNat_natToStr (n : Nat) : strToNat (natToStr n) = n :=
  strToNat_natToStrAux (n + 1) n (Nat.lt_succ_self n)

/-- natToStr is injective. -/
theorem natToStr_inj {a b : Nat} (h : natToStr a = natToStr b) : a = b := by
  have := congrArg strToNat h
  rwa [strToNat_natToStr, strToNat_natToStr] at this

/-- A string containing a non-digit is not a natToStr value. -/
theorem ne_natToStr_of_non_digit {s : List Char} {ch : Char}
    (hm : ch ∈ s) (hch : isDigitChar ch = false) (k : Nat) : s ≠ natToStr k := by
  intro hs
  have := natToStr_all_digits k ch (hs ▸ hm)
  rw [hch] at this
  exact Bool.false_ne_true this

/-- The regex search core finds nothing exactly on digit-free strings. -/
theorem takeWhile_dropWhile_nil_iff (l : List Char) :
    (l.dropWhile (fun c => !isDigitChar c)).takeWhile isDigitChar = [] ↔
    ∀ c ∈ l, isDigitChar c = false := by
  induction l with
  | nil => simp
  | cons c rest ih =>
    by_cases hc : isDigitChar c = true
    · simp [List.dropWhile, hc, List.takeWhile]
    · have hc' : isDigitChar c = false := by
        cases h : isDigitChar c
        · rfl
        · exact absurd h hc
      simp [List.dropWhile, hc', ih]

/-- No digit run is found iff the string has no digits. -/
theorem lastDigitRun_eq_none_iff (s : List Char) :
    lastDigitRun s = none ↔ ∀ c ∈ s, isDigitChar c = false := by
  rw [lastDigitRun]
  constructor
  · intro h c hc
    by_cases ht : ((s.reverse.dropWhile (fun c => !isDigitChar c)).takeWhile isDigitChar) = []
    · exact (takeWhile_dropWhile_nil_iff s.reverse).mp ht c (List.mem_reverse.mpr hc)
    · simp only [List.isEmpty_iff, ht, if_false] at h
      exact absurd h (Option.some_ne_none _)
  · intro h
    have ht : ((s.reverse.dropWhile (fun c => !isDigitChar c)).takeWhile isDigitChar) = [] :=
      (takeWhile_dropWhile_nil_iff s.reverse).mpr (fun c hc => h c (List.mem_reverse.mp hc))
    simp [ht]

/-- takeWhile keeps a list all of whose elements satisfy the test. -/
theorem takeWhile_eq_self_of_all {p : Char → Bool} :
    ∀ l : List Char, (∀ c ∈ l, p c = true) → l.takeWhile p = l := by
  intro l
  induction l with
  | nil => intro _; rfl
  | cons c rest ih =>
    intro h
    have hc := h c (List.mem_cons_self c rest)
    simp [List.takeWhile, hc, ih (fun x hx => h x (List.mem_cons_of_mem c hx))]

/-- dropWhile with a failing head keeps the whole list. -/
theorem dropWhile_all_digits :
    ∀ l : List Char, (∀ c ∈ l, isDigitChar c = true) →
      l.dropWhile (fun c => !isDigitChar c) = l := by
  intro l
  cases l with
  | nil => intro _; rfl
  | cons c rest =>
    intro h
    have hc := h c (List.mem_cons_self c rest)
    simp [List.dropWhile, hc]

/-- On a nonempty all-digit string the last digit run is the whole
string. -/
theorem lastDigitRun_all_digits {s : List Char}
    (hall : ∀ c ∈ s, isDigitChar c = true) (hne : s ≠ []) :
    lastDigitRun s = some s := by
  have hrev : ∀ c ∈ s.reverse, isDigitChar c = true :=
    fun c hc => hall c (List.mem_reverse.mp hc)
  have h1 : s.reverse.dropWhile (fun c => !isDigitChar c) = s.reverse :=
    dropWhile_all_digits s.reverse hrev
  have h2 : s.reverse.takeWhile isDigitChar = s.reverse :=
    takeWhile_eq_self_of_all s.reverse hrev
  have hne' : s.reverse ≠ [] := fun hh => hne (by simpa using congrArg List.reverse hh)
  rw [lastDigitRun]
  simp only [h1, h2]
  rw [if_neg (by simpa [List.isEmpty_iff] using hne')]
  rw [List.reverse_reverse]

/-- Appending "0" to a digit-free string makes "0" the last digit run. -/
theorem lastDigitRun_append_zero {s : List Char}
    (hall : ∀ c ∈ s, isDigitChar c = false) :
    lastDigitRun (s ++ ['0']) = some ['0'] := by
  have hrev : (s ++ ['0']).reverse = '0' :: s.reverse := by
    simp
  have htake : s.reverse.takeWhile isDigitChar = [] := by
    cases hs : s.reverse with
    | nil => rfl
    | cons c rest =>
      have hc : c ∈ s := List.mem_reverse.mp (hs ▸ List.mem_cons_self c rest)
      simp [List.takeWhile, hall c hc]
  rw [lastDigitRun, hrev]
  have h0 : isDigitChar '0' = true := by decide
  simp only [List.dropWhile, h0, Bool.not_true, List.takeWhile, htake]
  rfl

/-- The no-digit branch of the loop body. -/
theorem nextCandidate_of_none {s : List Char} (h : lastDigitRun s = none) :
    nextCandidate s = s ++ ['0'] := by
  rw [nextCandidate, h]

/-- The digit branch of the loop body: the whole candidate becomes the
incremented number. -/
theorem nextCandidate_of_some {s run : List Char} (h : lastDigitRun s = some run) :
    nextCandidate s = natToStr (strToNat run + 1) := by
  rw [nextCandidate, h]

/-- Stepping a pure number candidate increments it. -/
theorem nextCandidate_natToStr (n : Nat) :
    nextCandidate (natToStr n) = natToStr (n + 1) := by
  rw [nextCandidate_of_some (lastDigitRun_all_digits (natToStr_all_digits n) (natToStr_ne_nil n)),
    strToNat_natToStr]

/-- Iterating from a pure number candidate counts upward. -/
theorem candIter_natToStr : ∀ (d v : Nat), candIter d (natToStr v) = natToStr (v + d) := by
  intro d
  induction d with
  | zero => intro v; rfl
  | succ d ih =>
    intro v
    show candIter d (nextCandidate (natToStr v)) = natToStr (v + (d + 1))
    rw [nextCandidate_natToStr, ih (v + 1)]
    congr 1
    omega

/-- From step 1 (or step 2 after a digit-free start) on, the candidate
sequence of the collision loop runs through consecutive natToStr values;
in the latter case the step-1 candidate still contains a non-digit. -/
theorem candidate_spec (s : List Char) :
    (∃ v0, ∀ d, candIter (1 + d) s = natToStr (v0 + d)) ∨
    ((∃ ch ∈ candIter 1 s, isDigitChar ch = false) ∧
     (∃ v0, ∀ d, candIter (2 + d) s = natToStr (v0 + d))) := by
  cases hldr : lastDigitRun s with
  | some run =>
    left
    refine ⟨strToNat run + 1, ?_⟩
    intro d
    have h1 : candIter (1 + d) s = candIter d (nextCandidate s) := by
      rw [Nat.add_comm 1 d]
      rfl
    rw [h1, nextCandidate_of_some hldr, candIter_natToStr]
  | none =>
    have hall : ∀ c ∈ s, isDigitChar c = false := (lastDigitRun_eq_none_iff s).mp hldr
    have hc1 : candIter 1 s = s ++ ['0'] := by
      show candIter 0 (nextCandidate s) = s ++ ['0']
      rw [nextCandidate_of_none hldr]
      rfl
    by_cases hs : s = []
    · left
      refine ⟨0, ?_⟩
      intro d
      have h1 : candIter (1 + d) s = candIter d (nextCandidate s) := by
        rw [Nat.add_comm 1 d]
        rfl
      have h2 : nextCandidate s = natToStr 0 := by
        rw [nextCandidate_of_none hldr, hs]
        decide
      rw [h1, h2, candIter_natToStr]
    · right
      obtain ⟨ch, hchm⟩ := List.exists_mem_of_ne_nil s hs
      constructor
      · refine ⟨ch, ?_, hall ch hchm⟩
        rw [hc1]
        exact List.mem_append_left _ hchm
      · refine ⟨1, ?_⟩
        intro d
        have h1 : candIter (2 + d) s = candIter (1 + d) (nextCandidate s) := by
          rw [Nat.add_comm 2 d]
          show candIter (d + 1 + 1) s = _
          rw [Nat.add_comm 1 d]
          rfl
        have h2 : candIter (1 + d) (s ++ ['0']) = candIter d (nextCandidate (s ++ ['0'])) := by
          rw [Nat.add_comm 1 d]
          rfl
        rw [h1, nextCandidate_of_none hldr, h2,
          nextCandidate_of_some (lastDigitRun_append_zero hall)]
        have h3 : strToNat ['0'] = 0 := by decide
        rw [h3, candIter_natToStr]

/-- Candidates produced after the initial name are pairwise distinct. -/
theorem candIter_inj (s : List Char) :
    ∀ i j, 1 ≤ i → i < j → candIter i s ≠ candIter j s := by
  intro i j hi hij
  rcases candidate_spec s with ⟨v0, hA⟩ | ⟨⟨ch, hch, hchd⟩, v0, hB⟩
  · obtain ⟨d1, rfl⟩ : ∃ d1, i = 1 + d1 := ⟨i - 1, by omega⟩
    obtain ⟨d2, rfl⟩ : ∃ d2, j = 1 + d2 := ⟨j - 1, by omega⟩
    rw [hA d1, hA d2]
    intro hh
    have := natToStr_inj hh
    omega
  · by_cases hi1 : i = 1
    · subst hi1
      obtain ⟨d2, rfl⟩ : ∃ d2, j = 2 + d2 := ⟨j - 2, by omega⟩
      rw [hB d2]
      exact ne_natToStr_of_non_digit hch hchd (v0 + d2)
    · obtain ⟨d1, rfl⟩ : ∃ d1, i = 2 + d1 := ⟨i - 2, by omega⟩
      obtain ⟨d2, rfl⟩ : ∃ d2, j = 2 + d2 := ⟨j - 2, by omega⟩
      rw [hB d1, hB d2]
      intro hh
      have := natToStr_inj hh
      omega

/-- Within keys.length + 1 steps some candidate escapes the key set. -/
theorem exists_free_candidate (keys : List (List Char)) (s : List Char) :
    ∃ k, 1 ≤ k ∧ k ≤ keys.length + 1 ∧ candIter k s ∉ keys := by
  by_contra hcon
  push_neg at hcon
  have hmem : ∀ d < keys.length + 1, candIter (1 + d) s ∈ keys := by
    intro d hd
    exact hcon (1 + d) (by omega) (by omega)
  set l := (List.range (keys.length + 1)).map (fun d => candIter (1 + d) s) with hl
  have hinj : Function.Injective (fun d => candIter (1 + d) s) := by
    intro a b hab
    by_contra hne
    rcases Nat.lt_or_ge a b with h | h
    · exact candIter_inj s (1 + a) (1 + b) (by omega) (by omega) hab
    · have hlt : b < a := by omega
      exact candIter_inj s (1 + b) (1 + a) (by omega) (by omega) hab.symm
  have hnd : l.Nodup := List.Nodup.map hinj (List.nodup_range _)
  have hsub : l ⊆ keys := by
    intro x hx
    rcases List.mem_map.mp hx with ⟨d, hd, rfl⟩
    exact hmem d (List.mem_range.mp hd)
  have hlen : l.length ≤ keys.length := (List.subperm_of_subset hnd hsub).length_le
  have : l.length = keys.length + 1 := by simp [hl]
  omega

/-- The collision loop with a free candidate in range returns a name
outside the key set. -/
theorem resolveName_not_mem :
    ∀ (fuel : Nat) (keys : List (List Char)) (s : List Char),
      (∃ k, k < fuel ∧ candIter k s ∉ keys) →
      resolveName fuel keys s ∉ keys := by
  intro fuel
  induction fuel with
  | zero =>
    intro keys s h
    obtain ⟨k, hk, _⟩ := h
    omega
  | succ f ih =>
    intro keys s h
    by_cases hs : s ∈ keys
    · obtain ⟨k, hk, hfree⟩ := h
      have hk0 : k ≠ 0 := by
        intro hh
        exact hfree (hh ▸ hs)
      obtain ⟨k2, rfl⟩ : ∃ k2, k = k2 + 1 := ⟨k - 1, by omega⟩
      have hshift : candIter (k2 + 1) s = candIter k2 (nextCandidate s) := rfl
      have hres : resolveName (f + 1) keys s = resolveName f keys (nextCandidate s) := by
        simp [resolveName, hs]
      rw [hres]
      exact ih keys (nextCandidate s) ⟨k2, by omega, hshift ▸ hfree⟩
    · simp [resolveName, hs]

/-- The name add_object settles on is never an existing key of id_map. -/
theorem resolveName_fresh (keys : List (List Char)) (s : List Char) :
    resolveName (keys.length + 2) keys s ∉ keys := by
  obtain ⟨k, hk1, hk2, hfree⟩ := exists_free_candidate keys s
  exact resolveName_not_mem (keys.length + 2) keys s ⟨k, by omega, hfree⟩

/-! ## Association-list membership and counting lemmas -/

section AListMore

variable {α β : Type} [DecidableEq α] [DecidableEq β]

/-- Key presence is membership among the first components. -/
theorem alistHasKey_iff {m : List (α × β)} {k : α} :
    alistHasKey m k = true ↔ k ∈ m.map Prod.fst := by
  induction m with
  | nil => simp [alistHasKey, alistLookup]
  | cons p rest ih =>
    by_cases hk : p.1 = k
    · simp [alistHasKey, alistLookup, hk]
    · simp only [alistHasKey, alistLookup, if_neg hk, List.map_cons, List.mem_cons]
      rw [← alistHasKey]
      rw [ih]
      constructor
      · intro h
        exact Or.inr h
      · intro h
        rcases h with h | h
        · exact absurd h.symm hk
        · exact h

/-- A successful lookup exhibits a member pair. -/
theorem mem_of_alistLookup_eq_some {m : List (α × β)} {k : α} {v : β}
    (h : alistLookup m k = some v) : (k, v) ∈ m := by
  induction m with
  | nil => exact absurd h (by simp [alistLookup])
  | cons p rest ih =>
    by_cases hk : p.1 = k
    · rw [alistLookup, if_pos hk] at h
      have hv : p.2 = v := Option.some.inj h
      have hp : p = (k, v) := by
        rw [Prod.ext_iff]
        exact ⟨hk, hv⟩
      exact hp ▸ List.mem_cons_self p rest
    · rw [alistLookup, if_neg hk] at h
      exact List.mem_cons_of_mem p (ih h)

/-- Lookup hits the left part of an append when the key is there. -/
theorem alistLookup_append_left {m m2 : List (α × β)} {k : α} {v : β}
    (h : alistLookup m k = some v) : alistLookup (m ++ m2) k = some v := by
  induction m with
  | nil => exact absurd h (by simp [alistLookup])
  | cons p rest ih =>
    by_cases hk : p.1 = k
    · rw [alistLookup, if_pos hk] at h
      rw [List.cons_append, alistLookup, if_pos hk]
      exact h
    · rw [alistLookup, if_neg hk] at h
      rw [List.cons_append, alistLookup, if_neg hk]
      exact ih h

/-- Lookup falls through to the right part when the key is absent on the
left. -/
theorem alistLookup_append_right {m m2 : List (α × β)} {k : α}
    (h : alistHasKey m k = false) : alistLookup (m ++ m2) k = alistLookup m2 k := by
  induction m with
  | nil => rfl
  | cons p rest ih =>
    by_cases hk : p.1 = k
    · rw [alistHasKey, alistLookup, if_pos hk] at h
      exact absurd h (by simp)
    · rw [alistHasKey, alistLookup, if_neg hk] at h
      rw [List.cons_append, alistLookup, if_neg hk]
      exact ih h

/-- Erasure keeps exactly the pairs with other keys. -/
theorem mem_alistErase {m : List (α × β)} {k : α} {p : α × β} :
    p ∈ alistErase m k ↔ p ∈ m ∧ p.1 ≠ k := by
  induction m with
  | nil => simp [alistErase]
  | cons q rest ih =>
    by_cases hq : q.1 = k
    · rw [alistErase, if_pos hq, ih]
      constructor
      · intro ⟨h1, h2⟩
        exact ⟨List.mem_cons_of_mem q h1, h2⟩
      · intro ⟨h1, h2⟩
        rcases List.mem_cons.mp h1 with h | h
        · exact absurd (h ▸ hq) h2
        · exact ⟨h, h2⟩
    · rw [alistErase, if_neg hq]
      constructor
      · intro h
        rcases List.mem_cons.mp h with h | h
        · exact ⟨h ▸ List.mem_cons_self q rest, h ▸ hq⟩
        · obtain ⟨h1, h2⟩ := ih.mp h
          exact ⟨List.mem_cons_of_mem q h1, h2⟩
      · intro ⟨h1, h2⟩
        rcases List.mem_cons.mp h1 with h | h
        · exact h ▸ List.mem_cons_self q _
        · exact List.mem_cons_of_mem q (ih.mpr ⟨h, h2⟩)

/-- Erasure is a sublist. -/
theorem alistErase_sublist (m : List (α × β)) (k : α) : (alistErase m k).Sublist m := by
  induction m with
  | nil => simp [alistErase]
  | cons q rest ih =>
    by_cases hq : q.1 = k
    · rw [alistErase, if_pos hq]
      exact ih.cons q
    · rw [alistErase, if_neg hq]
      exact ih.cons₂ q

/-- Erasing an absent key is the identity. -/
theorem alistErase_of_not_mem {m : List (α × β)} {k : α}
    (h : k ∉ m.map Prod.fst) : alistErase m k = m := by
  induction m with
  | nil => rfl
  | cons q rest ih =>
    have hq : q.1 ≠ k := by
      intro hh
      exact h (List.mem_cons.mpr (Or.inl hh.symm))
    rw [alistErase, if_neg hq, ih (fun hh => h (List.mem_cons_of_mem q.1 hh))]

/-- findByValue collects exactly the keys paired with the value. -/
theorem mem_findByValue {m : List (α × β)} {v : β} {k : α} :
    k ∈ findByValue m v ↔ (k, v) ∈ m := by
  induction m with
  | nil => simp [findByValue]
  | cons q rest ih =>
    by_cases hq : q.2 = v
    · rw [findByValue, if_pos hq]
      constructor
      · intro h
        rcases List.mem_cons.mp h with h | h
        · have hp : q = (k, v) := by
            rw [Prod.ext_iff]
            exact ⟨h.symm, hq⟩
          exact hp ▸ List.mem_cons_self q rest
        · exact List.mem_cons_of_mem q (ih.mp h)
      · intro h
        rcases List.mem_cons.mp h with h | h
        · exact List.mem_cons.mpr (Or.inl (by rw [← h]))
        · exact List.mem_cons_of_mem q.1 (ih.mpr h)
    · rw [findByValue, if_neg hq, ih]
      constructor
      · intro h
        exact List.mem_cons_of_mem q h
      · intro h
        rcases List.mem_cons.mp h with h | h
        · exact absurd (by rw [← h] : q.2 = v) hq
        · exact h

/-- The boolean FindByValue agrees with existence of a matching pair. -/
theorem findByValueB_iff {m : List (α × β)} {v : β} :
    findByValueB m v = true ↔ ∃ q ∈ m, q.2 = v := by
  induction m with
  | nil => simp [findByValueB]
  | cons q rest ih =>
    by_cases hq : q.2 = v
    · simp [findByValueB, hq]
    · simp only [findByValueB, if_neg hq, ih]
      constructor
      · intro ⟨x, hx1, hx2⟩
        exact ⟨x, List.mem_cons_of_mem q hx1, hx2⟩
      · intro ⟨x, hx1, hx2⟩
        rcases List.mem_cons.mp hx1 with h | h
        · exact absurd (h ▸ hx2) hq
        · exact ⟨x, h, hx2⟩

/-- countValue adds over append. -/
theorem countValue_append (m m2 : List (α × β)) (v : β) :
    countValue (m ++ m2) v = countValue m v + countValue m2 v := by
  induction m with
  | nil => simp [countValue]
  | cons q rest ih =>
    rw [List.cons_append, countValue, countValue, ih]
    omega

/-- A zero count means no pair carries the value. -/
theorem countValue_eq_zero_iff {m : List (α × β)} {v : β} :
    countValue m v = 0 ↔ ∀ q ∈ m, q.2 ≠ v := by
  induction m with
  | nil => simp [countValue]
  | cons q rest ih =>
    rw [countValue]
    by_cases hq : q.2 = v
    · rw [if_pos hq]
      constructor
      · intro h
        omega
      · intro h
        exact absurd hq (h q (List.mem_cons_self q rest))
    · rw [if_neg hq]
      constructor
      · intro h x hx
        rcases List.mem_cons.mp hx with h2 | h2
        · exact h2 ▸ hq
        · exact ih.mp (by omega) x h2
      · intro h
        have h0 : countValue rest v = 0 :=
          ih.mpr (fun x hx => h x (List.mem_cons_of_mem q hx))
        omega

/-- Two distinct member pairs with the same value force a count of at
least two. -/
theorem countValue_ge_two {m : List (α × β)} {p1 p2 : α × β} {v : β}
    (h1 : p1 ∈ m) (h2 : p2 ∈ m) (hne : p1 ≠ p2)
    (hv1 : p1.2 = v) (hv2 : p2.2 = v) : 2 ≤ countValue m v := by
  induction m with
  | nil => exact absurd h1 (List.not_mem_nil p1)
  | cons q rest ih =>
    rcases List.mem_cons.mp h1 with hq1 | hr1
    · rcases List.mem_cons.mp h2 with hq2 | hr2
      · exact absurd (hq1.trans hq2.symm) hne
      · have hqv : q.2 = v := hq1 ▸ hv1
        have hcnt : 1 ≤ countValue rest v := by
          by_contra hc
          push_neg at hc
          have h0 : countValue rest v = 0 := by omega
          exact (countValue_eq_zero_iff.mp h0 p2 hr2) hv2
        rw [countValue, if_pos hqv]
        omega
    · rcases List.mem_cons.mp h2 with hq2 | hr2
      · have hqv : q.2 = v := hq2 ▸ hv2
        have hcnt : 1 ≤ countValue rest v := by
          by_contra hc
          push_neg at hc
          have h0 : countValue rest v = 0 := by omega
          exact (countValue_eq_zero_iff.mp h0 p1 hr1) hv1
        rw [countValue, if_pos hqv]
        omega
      · have := ih hr1 hr2
        rw [countValue]
        omega

/-- Erasing the unique pair with key k (present with value v, keys
distinct) removes exactly one occurrence of v and none of any other
value. -/
theorem countValue_alistErase {m : List (α × β)} {k : α} {v : β}
    (hnd : (m.map Prod.fst).Nodup) (hm : (k, v) ∈ m) (v2 : β) :
    countValue (alistErase m k) v2 + (if v = v2 then 1 else 0) = countValue m v2 := by
  induction m with
  | nil => exact absurd hm (List.not_mem_nil _)
  | cons q rest ih =>
    have hnd' : (rest.map Prod.fst).Nodup := (List.nodup_cons.mp hnd).2
    have hhead : q.1 ∉ rest.map Prod.fst := (List.nodup_cons.mp hnd).1
    rcases List.mem_cons.mp hm with hq | hr
    · have hqk : q.1 = k := by rw [← hq]
      have hqv : q.2 = v := by rw [← hq]
      rw [alistErase, if_pos hqk]
      have hkabs : k ∉ rest.map Prod.fst := hqk ▸ hhead
      rw [alistErase_of_not_mem hkabs, countValue, hqv]
      omega
    · have hqk : q.1 ≠ k := by
        intro hh
        exact hhead (hh ▸ List.mem_map_of_mem Prod.fst hr)
      rw [alistErase, if_neg hqk, countValue, countValue, ← ih hnd' hr]
      omega

end AListMore

section AListMore2

variable {α β : Type} [DecidableEq α] [DecidableEq β]

/-- Absent keys read as false presence. -/
theorem alistHasKey_false_iff {m : List (α × β)} {k : α} :
    alistHasKey m k = false ↔ k ∉ m.map Prod.fst := by
  constructor
  · intro h hm
    rw [← alistHasKey_iff] at hm
    rw [h] at hm
    exact Bool.false_ne_true hm
  · intro h
    cases hh : alistHasKey m k
    · rfl
    · exact absurd (alistHasKey_iff.mp hh) h

/-- Writing at a fresh key appends the entry. -/
theorem alistInsert_of_not_hasKey {m : List (α × β)} {k : α} {v : β}
    (h : alistHasKey m k = false) : alistInsert m k v = m ++ [(k, v)] := by
  rw [alistInsert, h]
  rfl

/-- Key presence survives appending on the right. -/
theorem alistHasKey_append_left {m m2 : List (α × β)} {k : α}
    (h : alistHasKey m k = true) : alistHasKey (m ++ m2) k = true := by
  rw [alistHasKey] at h
  obtain ⟨v, hv⟩ := Option.isSome_iff_exists.mp h
  rw [alistHasKey, alistLookup_append_left hv]
  rfl

/-- A one-entry map answers its own key. -/
theorem alistLookup_singleton_self (k : α) (v : β) :
    alistLookup [(k, v)] k = some v := by
  simp [alistLookup]

/-- Appending a fresh entry makes its key present. -/
theorem alistHasKey_append_fresh {m : List (α × β)} {k : α} {v : β}
    (h : alistHasKey m k = false) : alistHasKey (m ++ [(k, v)]) k = true := by
  rw [alistHasKey, alistLookup_append_right h, alistLookup_singleton_self]
  rfl

/-- Keys of an erasure are the remaining keys. -/
theorem mem_map_fst_alistErase {m : List (α × β)} {k b : α} :
    b ∈ (alistErase m k).map Prod.fst ↔ b ∈ m.map Prod.fst ∧ b ≠ k := by
  constructor
  · intro h
    rcases List.mem_map.mp h with ⟨p, hp, rfl⟩
    obtain ⟨h1, h2⟩ := mem_alistErase.mp hp
    exact ⟨List.mem_map_of_mem Prod.fst h1, h2⟩
  · intro ⟨h1, h2⟩
    rcases List.mem_map.mp h1 with ⟨p, hp, rfl⟩
    exact List.mem_map_of_mem Prod.fst (mem_alistErase.mpr ⟨hp, h2⟩)

/-- FindByValue returns one key per occurrence of the value. -/
theorem findByValue_length (m : List (α × β)) (v : β) :
    (findByValue m v).length = countValue m v := by
  induction m with
  | nil => rfl
  | cons q rest ih =>
    by_cases hq : q.2 = v
    · rw [findByValue, if_pos hq, countValue, if_pos hq, List.length_cons, ih]
      omega
    · rw [findByValue, if_neg hq, countValue, if_neg hq, ih]
      omega

/-- Appending one fresh element preserves distinctness. -/
theorem nodup_concat {γ : Type} {l : List γ} {x : γ}
    (h : l.Nodup) (hx : x ∉ l) : (l ++ [x]).Nodup := by
  rw [List.nodup_append]
  refine ⟨h, List.nodup_singleton x, ?_⟩
  intro a ha hax
  rw [List.mem_singleton] at hax
  exact hx (hax ▸ ha)

end AListMore2

/-- Two heap entries with the same instance id coincide (heap ids are
pairwise distinct). -/
theorem heap_entry_eq_of_id (w : World) (hw : WorldInv w)
    {p1 p2 : Nat × Obj} (h1 : p1 ∈ w.heap) (h2 : p2 ∈ w.heap)
    (hid : p1.2.instanceId = p2.2.instanceId) : p1 = p2 :=
  List.inj_on_of_nodup_map hw.idNodup h1 h2 hid

/-- The allocator cursor is never a live address. -/
theorem nextAddr_not_live (w : World) (hw : WorldInv w) :
    alistHasKey w.heap w.nextAddr = false := by
  rw [alistHasKey_false_iff]
  intro hm
  rcases List.mem_map.mp hm with ⟨p, hp, hp2⟩
  have := hw.addrLt p hp
  omega

/-- Inserting a fresh id/address pair with a fresh name preserves the
Layer map invariant (the common tail of both add_object paths). -/
theorem layer_insert_preserves (w2 : World) (L : Layer) (a2 oid : Nat) (nm : List Char)
    (hnames : (L.id_map.map Prod.fst).Nodup)
    (hids : (L.objects.map Prod.fst).Nodup)
    (hsound : ∀ p ∈ L.id_map, alistHasKey L.objects p.2 = true)
    (huniq : ∀ q ∈ L.objects, countValue L.id_map q.1 = 1)
    (hcoup2 : ∀ q ∈ L.objects, ∃ o, alistLookup w2.heap q.2 = some o ∧ o.instanceId = q.1)
    (hoid : oid ∉ L.objects.map Prod.fst)
    (hnm : nm ∉ L.id_map.map Prod.fst)
    (ho2 : ∃ o, alistLookup w2.heap a2 = some o ∧ o.instanceId = oid) :
    LayerInv w2 { L with id_map := alistInsert L.id_map nm oid,
                         objects := alistInsert L.objects oid a2 } := by
  have hnmk : alistHasKey L.id_map nm = false := alistHasKey_false_iff.mpr hnm
  have hoidk : alistHasKey L.objects oid = false := alistHasKey_false_iff.mpr hoid
  have hins1 : alistInsert L.id_map nm oid = L.id_map ++ [(nm, oid)] :=
    alistInsert_of_not_hasKey hnmk
  have hins2 : alistInsert L.objects oid a2 = L.objects ++ [(oid, a2)] :=
    alistInsert_of_not_hasKey hoidk
  refine ⟨?_, ?_, ?_, ?_, ?_⟩
  · show ((alistInsert L.id_map nm oid).map Prod.fst).Nodup
    rw [hins1, List.map_append]
    exact nodup_concat hnames hnm
  · show ((alistInsert L.objects oid a2).map Prod.fst).Nodup
    rw [hins2, List.map_append]
    exact nodup_concat hids hoid
  · intro p hp
    rw [hins1] at hp
    show alistHasKey (alistInsert L.objects oid a2) p.2 = true
    rw [hins2]
    rcases List.mem_append.mp hp with hold | hnew
    · exact alistHasKey_append_left (hsound p hold)
    · have hpv : p = (nm, oid) := List.mem_singleton.mp hnew
      rw [hpv]
      exact alistHasKey_append_fresh hoidk
  · intro q hq
    rw [hins2] at hq
    show countValue (alistInsert L.id_map nm oid) q.1 = 1
    rw [hins1, countValue_append]
    rcases List.mem_append.mp hq with hold | hnew
    · have hne : oid ≠ q.1 := by
        intro hh
        exact hoid (hh ▸ List.mem_map_of_mem Prod.fst hold)
      have hz : countValue [(nm, oid)] q.1 = 0 := by
        rw [countValue_eq_zero_iff]
        intro x hx
        rw [List.mem_singleton.mp hx]
        exact hne
      rw [hz, huniq q hold]
    · have hqv : q = (oid, a2) := List.mem_singleton.mp hnew
      have hz : countValue L.id_map q.1 = 0 := by
        rw [countValue_eq_zero_iff]
        intro x hx hxv
        have := hsound x hx
        rw [hxv, hqv] at this
        exact absurd (alistHasKey_iff.mp this) hoid
      rw [hz]
      rw [hqv]
      simp [countValue]
  · intro q hq
    rw [hins2] at hq
    rcases List.mem_append.mp hq with hold | hnew
    · exact hcoup2 q hold
    · have hqv : q = (oid, a2) := List.mem_singleton.mp hnew
      rw [hqv]
      exact ho2

/-- Erasing a present id together with one of its names preserves the
Layer map invariant (the common core of the remove_object overloads). -/
theorem layer_erase_preserves (w : World) (L : Layer) (i a : Nat) (n : List Char)
    (hL : LayerInv w L) (hio : (i, a) ∈ L.objects) (hin : (n, i) ∈ L.id_map) :
    LayerInv w { L with objects := alistErase L.objects i,
                        id_map := alistErase L.id_map n } := by
  refine ⟨?_, ?_, ?_, ?_, ?_⟩
  · exact ((alistErase_sublist L.id_map n).map Prod.fst).nodup hL.namesNodup
  · exact ((alistErase_sublist L.objects i).map Prod.fst).nodup hL.idsNodup
  · intro p hp
    obtain ⟨hpm, hpn⟩ := mem_alistErase.mp hp
    have hpi : p.2 ≠ i := by
      intro hpv
      have hpne : p ≠ (n, i) := by
        intro hh
        exact hpn (by rw [hh])
      have h2 := countValue_ge_two hpm hin hpne hpv rfl
      rw [hL.unique (i, a) hio] at h2
      omega
    show alistHasKey (alistErase L.objects i) p.2 = true
    rw [alistHasKey_iff, mem_map_fst_alistErase]
    exact ⟨alistHasKey_iff.mp (hL.sound p hpm), hpi⟩
  · intro q hq
    obtain ⟨hqm, hqi⟩ := mem_alistErase.mp hq
    show countValue (alistErase L.id_map n) q.1 = 1
    have heq := countValue_alistErase hL.namesNodup hin q.1
    have hne : i ≠ q.1 := fun hh => hqi (by rw [hh])
    rw [if_neg hne] at heq
    rw [hL.unique q hqm] at heq
    omega
  · intro q hq
    exact hL.coupling q (mem_alistErase.mp hq).1

/-- Unfolding add_object when the pointer is not yet held by the layer:
the world is unchanged and the pointer is stored under the pointed-to
object's id. -/
theorem add_object_eq_direct (w : World) (L : Layer) (objptr : Nat) (name : List Char)
    (h : findByValueB L.objects objptr = false) :
    L.add_object w objptr name =
      (w,
       { L with
          id_map := alistInsert L.id_map
            (resolveName (L.id_map.length + 2) (L.id_map.map Prod.fst) name)
            ((w.get objptr).getD defaultObj).instanceId
          objects := alistInsert L.objects
            ((w.get objptr).getD defaultObj).instanceId objptr },
       resolveName (L.id_map.length + 2) (L.id_map.map Prod.fst) name) := by
  simp [Layer.add_object, h]

/-- Unfolding add_object when the pointer is already held by the layer:
a copy with a fresh id is allocated at the allocator cursor. -/
theorem add_object_eq_copy (w : World) (L : Layer) (objptr : Nat) (name : List Char)
    (h : findByValueB L.objects objptr = true) :
    L.add_object w objptr name =
      ((⟨w.heap ++ [(w.nextAddr, (copyObj ((w.get objptr).getD defaultObj) w.counter).1)],
         w.nextAddr + 1, w.counter + 1⟩ : World),
       { L with
          id_map := alistInsert L.id_map
            (resolveName (L.id_map.length + 2) (L.id_map.map Prod.fst) name)
            (((⟨w.heap ++ [(w.nextAddr, (copyObj ((w.get objptr).getD defaultObj) w.counter).1)],
               w.nextAddr + 1, w.counter + 1⟩ : World).get w.nextAddr).getD
              defaultObj).instanceId
          objects := alistInsert L.objects
            (((⟨w.heap ++ [(w.nextAddr, (copyObj ((w.get objptr).getD defaultObj) w.counter).1)],
               w.nextAddr + 1, w.counter + 1⟩ : World).get w.nextAddr).getD
              defaultObj).instanceId w.nextAddr },
       resolveName (L.id_map.length + 2) (L.id_map.map Prod.fst) name) := by
  simp [Layer.add_object, h, World.alloc, copyObj]

/-- Layer::add_object keeps the world and layer invariants, for any live
pointer argument. -/
theorem add_object_preserves (w : World) (L : Layer) (objptr : Nat) (name : List Char)
    (hw : WorldInv w) (hL : LayerInv w L)
    (hptr : alistHasKey w.heap objptr = true) :
    WorldInv (L.add_object w objptr name).1 ∧
    LayerInv (L.add_object w objptr name).1 (L.add_object w objptr name).2.1 := by
  have hnm : resolveName (L.id_map.length + 2) (L.id_map.map Prod.fst) name
      ∉ L.id_map.map Prod.fst := by
    have h := resolveName_fresh (L.id_map.map Prod.fst) name
    rwa [List.length_map] at h
  by_cases hfind : findByValueB L.objects objptr = true
  · rw [add_object_eq_copy w L objptr name hfind]
    set O := (copyObj ((w.get objptr).getD defaultObj) w.counter).1 with hO
    set W2 : World := ⟨w.heap ++ [(w.nextAddr, O)], w.nextAddr + 1, w.counter + 1⟩ with hW2
    have hfresh : alistHasKey w.heap w.nextAddr = false := nextAddr_not_live w hw
    have hW2get : alistLookup W2.heap w.nextAddr = some O := by
      rw [hW2]
      show alistLookup (w.heap ++ [(w.nextAddr, O)]) w.nextAddr = some O
      rw [alistLookup_append_right hfresh, alistLookup_singleton_self]
    have hOid : O.instanceId = w.counter := by
      rw [hO]
      rfl
    have hgetd : (W2.get w.nextAddr).getD defaultObj = O := by
      rw [World.get, hW2get]
      rfl
    have hcnt_not : w.counter ∉ L.objects.map Prod.fst := by
      intro hmem
      have hk : alistHasKey L.objects w.counter = true := alistHasKey_iff.mpr hmem
      obtain ⟨a3, ha3⟩ := Option.isSome_iff_exists.mp hk
      obtain ⟨o3, ho3, ho3id⟩ :=
        hL.coupling (w.counter, a3) (mem_of_alistLookup_eq_some ha3)
      have := hw.idLt (a3, o3) (mem_of_alistLookup_eq_some ho3)
      simp only at this
      rw [ho3id] at this
      omega
    have hwinv2 : WorldInv W2 := by
      refine ⟨?_, ?_, ?_, ?_⟩
      · rw [hW2]
        show ((w.heap ++ [(w.nextAddr, O)]).map Prod.fst).Nodup
        rw [List.map_append]
        exact nodup_concat hw.addrNodup (alistHasKey_false_iff.mp hfresh)
      · intro p hp
        rw [hW2] at hp ⊢
        rcases List.mem_append.mp hp with hold | hnew
        · have := hw.addrLt p hold
          show p.1 < w.nextAddr + 1
          omega
        · rw [List.mem_singleton.mp hnew]
          show w.nextAddr < w.nextAddr + 1
          omega
      · rw [hW2]
        show ((w.heap ++ [(w.nextAddr, O)]).map (fun p => p.2.instanceId)).Nodup
        rw [List.map_append]
        refine nodup_concat hw.idNodup ?_
        intro hmem
        rcases List.mem_map.mp hmem with ⟨p, hp, hpid⟩
        have := hw.idLt p hp
        simp only at hpid
        rw [hOid] at hpid
        omega
      · intro p hp
        rw [hW2] at hp ⊢
        rcases List.mem_append.mp hp with hold | hnew
        · have := hw.idLt p hold
          show p.2.instanceId < w.counter + 1
          omega
        · rw [List.mem_singleton.mp hnew]
          show O.instanceId < w.counter + 1
          rw [hOid]
          omega
    refine ⟨hwinv2, ?_⟩
    refine layer_insert_preserves W2 L w.nextAddr _ _ hL.namesNodup hL.idsNodup
      hL.sound hL.unique ?_ ?_ hnm ?_
    · intro q hq
      obtain ⟨o2, ho2, ho2id⟩ := hL.coupling q hq
      refine ⟨o2, ?_, ho2id⟩
      rw [hW2]
      show alistLookup (w.heap ++ [(w.nextAddr, O)]) q.2 = some o2
      exact alistLookup_append_left ho2
    · rw [hgetd, hOid]
      exact hcnt_not
    · exact ⟨O, hW2get, by rw [hgetd]⟩
  · have hfind' : findByValueB L.objects objptr = false := by
      cases h : findByValueB L.objects objptr
      · rfl
      · exact absurd h hfind
    rw [add_object_eq_direct w L objptr name hfind']
    obtain ⟨osrc, hosrc⟩ := Option.isSome_iff_exists.mp hptr
    have hgetd : (w.get objptr).getD defaultObj = osrc := by
      rw [World.get, hosrc]
      rfl
    have hoid : ((w.get objptr).getD defaultObj).instanceId ∉ L.objects.map Prod.fst := by
      rw [hgetd]
      intro hmem
      have hk : alistHasKey L.objects osrc.instanceId = true := alistHasKey_iff.mpr hmem
      obtain ⟨a3, ha3⟩ := Option.isSome_iff_exists.mp hk
      obtain ⟨o3, ho3, ho3id⟩ :=
        hL.coupling (osrc.instanceId, a3) (mem_of_alistLookup_eq_some ha3)
      have heq : (a3, o3) = (objptr, osrc) :=
        heap_entry_eq_of_id w hw (mem_of_alistLookup_eq_some ho3)
          (mem_of_alistLookup_eq_some hosrc) (by simp only; rw [ho3id])
      have hfb : findByValueB L.objects objptr = true := by
        rw [findByValueB_iff]
        refine ⟨(osrc.instanceId, a3), mem_of_alistLookup_eq_some ha3, ?_⟩
        show a3 = objptr
        exact congrArg Prod.fst heq
      exact absurd hfb hfind
    refine ⟨hw, ?_⟩
    refine layer_insert_preserves w L objptr _ _ hL.namesNodup hL.idsNodup
      hL.sound hL.unique hL.coupling hoid hnm ?_
    exact ⟨osrc, hosrc, by rw [hgetd]⟩

/-- Layer::remove_object(num_id) keeps the layer invariant. -/
theorem remove_object_id_preserves (w : World) (L : Layer) (num_id : Nat)
    (hL : LayerInv w L) : LayerInv w (L.remove_object_id num_id) := by
  by_cases hk : alistHasKey L.objects num_id = true
  · obtain ⟨a, ha⟩ := Option.isSome_iff_exists.mp hk
    have hmem : (num_id, a) ∈ L.objects := mem_of_alistLookup_eq_some ha
    have hlen : (findByValue L.id_map num_id).length = 1 := by
      rw [findByValue_length]
      exact hL.unique (num_id, a) hmem
    obtain ⟨n, hn⟩ : ∃ n, findByValue L.id_map num_id = [n] := by
      cases hfv : findByValue L.id_map num_id with
      | nil =>
        rw [hfv] at hlen
        simp at hlen
      | cons x rest =>
        rw [hfv] at hlen
        have hr : rest = [] := List.length_eq_zero.mp (by simpa using hlen)
        exact ⟨x, by rw [hr]⟩
    have hnin : (n, num_id) ∈ L.id_map := by
      refine mem_findByValue.mp ?_
      rw [hn]
      exact List.mem_singleton.mpr rfl
    have hred : L.remove_object_id num_id =
        { L with objects := alistErase L.objects num_id,
                 id_map := alistErase L.id_map n } := by
      simp [Layer.remove_object_id, hk, hn]
    rw [hred]
    exact layer_erase_preserves w L num_id a n hL hmem hnin
  · have hk' : alistHasKey L.objects num_id = false := by
      cases h : alistHasKey L.objects num_id
      · rfl
      · exact absurd h hk
    have hred : L.remove_object_id num_id = L := by
      simp [Layer.remove_object_id, hk']
    rw [hred]
    exact hL

/-- Layer::remove_object(str_id) keeps the layer invariant. -/
theorem remove_object_name_preserves (w : World) (L : Layer) (str_id : List Char)
    (hL : LayerInv w L) : LayerInv w (L.remove_object_name str_id) := by
  cases hlk : alistLookup L.id_map str_id with
  | none =>
    have hred : L.remove_object_name str_id = L := by
      simp [Layer.remove_object_name, hlk]
    rw [hred]
    exact hL
  | some i =>
    have hmem : (str_id, i) ∈ L.id_map := mem_of_alistLookup_eq_some hlk
    have hkey : alistHasKey L.objects i = true := hL.sound (str_id, i) hmem
    obtain ⟨a, ha⟩ := Option.isSome_iff_exists.mp hkey
    have hio : (i, a) ∈ L.objects := mem_of_alistLookup_eq_some ha
    have hred : L.remove_object_name str_id =
        { L with objects := alistErase L.objects i,
                 id_map := alistErase L.id_map str_id } := by
      simp [Layer.remove_object_name, hlk]
    rw [hred]
    exact layer_erase_preserves w L i a str_id hL hio hmem

/-- Layer::remove_object(objptr) keeps the layer invariant. -/
theorem remove_object_ptr_preserves (w : World) (L : Layer) (objptr : Nat)
    (hL : LayerInv w L) : LayerInv w (L.remove_object_ptr objptr) := by
  cases hfv : findByValue L.objects objptr with
  | nil =>
    have hred : L.remove_object_ptr objptr = L := by
      simp [Layer.remove_object_ptr, hfv]
    rw [hred]
    exact hL
  | cons i rest =>
    have hi : i ∈ findByValue L.objects objptr := by
      rw [hfv]
      exact List.mem_cons_self i rest
    have hio : (i, objptr) ∈ L.objects := mem_findByValue.mp hi
    have hlen : (findByValue L.id_map i).length = 1 := by
      rw [findByValue_length]
      exact hL.unique (i, objptr) hio
    obtain ⟨n, hn⟩ : ∃ n, findByValue L.id_map i = [n] := by
      cases hfv2 : findByValue L.id_map i with
      | nil =>
        rw [hfv2] at hlen
        simp at hlen
      | cons x r2 =>
        rw [hfv2] at hlen
        have hr : r2 = [] := List.length_eq_zero.mp (by simpa using hlen)
        exact ⟨x, by rw [hr]⟩
    have hnin : (n, i) ∈ L.id_map := by
      refine mem_findByValue.mp ?_
      rw [hn]
      exact List.mem_singleton.mpr rfl
    have hred : L.remove_object_ptr objptr =
        { L with objects := alistErase L.objects i,
                 id_map := alistErase L.id_map n } := by
      simp [Layer.remove_object_ptr, hfv, hn]
    rw [hred]
    exact layer_erase_preserves w L i objptr n hL hio hnin

/-- The Layer constructor only bumps the instance counter and starts with
empty maps: both invariants hold. -/
theorem mkLayer_preserves (w : World) (hw : WorldInv w) :
    WorldInv (mkLayer w).1 ∧ LayerInv (mkLayer w).1 (mkLayer w).2 := by
  constructor
  · refine ⟨hw.addrNodup, hw.addrLt, hw.idNodup, ?_⟩
    intro p hp
    have := hw.idLt p hp
    show p.2.instanceId < w.counter + 1
    omega
  · refine ⟨List.nodup_nil, List.nodup_nil, ?_, ?_, ?_⟩
    · intro p hp
      exact absurd hp (List.not_mem_nil p)
    · intro q hq
      exact absurd hq (List.not_mem_nil q)
    · intro q hq
      exact absurd hq (List.not_mem_nil q)

/-- Any well-formed sequence of add_object/remove_object calls keeps both
invariants. -/
theorem applyOps_preserves :
    ∀ (ops : List LayerOp) (w : World) (L : Layer),
      WorldInv w → LayerInv w L → opsWF w L ops = true →
      WorldInv (applyOps w L ops).1 ∧
      LayerInv (applyOps w L ops).1 (applyOps w L ops).2 := by
  intro ops
  induction ops with
  | nil =>
    intro w L hw hL _
    exact ⟨hw, hL⟩
  | cons op rest ih =>
    intro w L hw hL hwf
    have hred : applyOps w L (op :: rest) =
        applyOps (applyOp w L op).1 (applyOp w L op).2 rest := rfl
    rw [hred]
    cases op with
    | add p nm =>
      simp only [opsWF, Bool.and_eq_true] at hwf
      obtain ⟨hhead, hrest⟩ := hwf
      obtain ⟨h1, h2⟩ := add_object_preserves w L p nm hw hL hhead
      exact ih _ _ h1 h2 hrest
    | removeId i =>
      simp only [opsWF, Bool.and_eq_true] at hwf
      exact ih _ _ hw (remove_object_id_preserves w L i hL) hwf.2
    | removeName s =>
      simp only [opsWF, Bool.and_eq_true] at hwf
      exact ih _ _ hw (remove_object_name_preserves w L s hL) hwf.2
    | removePtr p =>
      simp only [opsWF, Bool.and_eq_true] at hwf
      exact ih _ _ hw (remove_object_ptr_preserves w L p hL) hwf.2

/-- C6: after any well-formed sequence of add_object and remove_object
calls on a freshly constructed Layer, every name key of id_map maps to a
numeric id that is a key of objects, and every numeric id that is a key
of objects appears as a value of id_map exactly once. -/
theorem layer_maps_invariant :
    ∀ (w : World) (ops : List LayerOp),
      WorldInv w →
      opsWF (mkLayer w).1 (mkLayer w).2 ops = true →
      (∀ p ∈ (applyOps (mkLayer w).1 (mkLayer w).2 ops).2.id_map,
        alistHasKey (applyOps (mkLayer w).1 (mkLayer w).2 ops).2.objects p.2 = true) ∧
      (∀ q ∈ (applyOps (mkLayer w).1 (mkLayer w).2 ops).2.objects,
        countValue (applyOps (mkLayer w).1 (mkLayer w).2 ops).2.id_map q.1 = 1) := by
  intro w ops hw hwf
  obtain ⟨hw1, hL1⟩ := mkLayer_preserves w hw
  obtain ⟨_, hfinal⟩ := applyOps_preserves ops (mkLayer w).1 (mkLayer w).2 hw1 hL1 hwf
  exact ⟨hfinal.sound, hfinal.unique⟩

/-- The operation sequence for the invariant witness: three adds under
the same requested name and one removal by resolved name. -/
def invOps : List LayerOp :=
  [.add 0 "a".data, .add 1 "a".data, .add 2 "a".data, .removeName "a0".data]

/-- Witness for C6: on the three-object heap, after add "a" three times
and removing "a0", the name "a" still resolves to a held id and the id 2
carries exactly one name. -/
theorem layer_maps_invariant_witness :
    alistHasKey (applyOps (mkLayer threeObjWorld).1 (mkLayer threeObjWorld).2 invOps).2.objects
      (("a".data, 0) : List Char × Nat).2 = true ∧
    countValue (applyOps (mkLayer threeObjWorld).1 (mkLayer threeObjWorld).2 invOps).2.id_map
      ((2, 2) : Nat × Nat).1 = 1 :=
  ⟨(layer_maps_invariant threeObjWorld invOps
      ⟨by decide, by decide, by decide, by decide⟩ (by decide)).1
      ("a".data, 0) (by decide),
   (layer_maps_invariant threeObjWorld invOps
      ⟨by decide, by decide, by decide, by decide⟩ (by decide)).2
      (2, 2) (by decide)⟩

end GenEx
